import Mathlib

set_option autoImplicit false

namespace NearPytest

/-! Shallow embedding of the nearcore pytest cluster orchestrator
(`pytest/lib/cluster.py`).  JSON documents are modelled as trees; Python
dicts become association lists that preserve insertion order, exactly as
Python dicts do. -/

/-- A JSON value as handled by `json.load` in `cluster.py`.  Numbers are
modelled as integers; the claims under study never depend on float values. -/
inductive JVal where
  | null
  | bool (b : Bool)
  | num (n : Int)
  | str (s : String)
  | arr (elems : List JVal)
  | obj (fields : List (String × JVal))
  deriving Repr

/-- A Python dict with string keys, in insertion order. -/
abbrev Dict := List (String × JVal)

/-- Python `d[k]` / `d.get(k)`: first (and with unique keys, only) match. -/
def dget : Dict → String → Option JVal
  | [], _ => none
  | (q, v) :: rest, k => if q = k then some v else dget rest k

/-- Python `k in d`. -/
def dmem (d : Dict) (k : String) : Bool :=
  (dget d k).isSome

/-- Python `d[k] = v`: replace in place if the key is present, else append. -/
def dset : Dict → String → JVal → Dict
  | [], k, v => [(k, v)]
  | (q, w) :: rest, k, v =>
    if q = k then (k, v) :: rest else (q, w) :: dset rest k v

/-- Python `h.update(v)`: set every entry of `v` into `h`, in order. -/
def dupdate (h : Dict) (v : Dict) : Dict :=
  v.foldl (fun acc p => dset acc p.1 p.2) h

/-- The ordered key list of a dict. -/
def keylist (d : Dict) : List String :=
  d.map Prod.fst

/-- The fields of an object value; any non-object contributes no fields.
This mirrors the coercion `current[part] = {}` in `apply_config_changes`:
descending into a non-dict continues from an empty dict. -/
def fieldsOr : JVal → Dict
  | .obj f => f
  | _ => []

/-- Python `isinstance(v, dict)`. -/
def isObjB : JVal → Bool
  | .obj _ => true
  | _ => false

/-- Helper for `splitChar`: the accumulator holds the current piece in
reverse. -/
def splitCharAux (sep : Char) : List Char → List Char → List String
  | [], acc => [String.mk acc.reverse]
  | c :: cs, acc =>
    if c = sep then String.mk acc.reverse :: splitCharAux sep cs []
    else splitCharAux sep cs (c :: acc)

/-- Python `s.split(sep)` for a single-character separator: split on every
occurrence, keeping empty pieces, and return `[s]` when the separator does
not occur (in particular `[""]` for the empty string). -/
def splitChar (sep : Char) (s : String) : List String :=
  splitCharAux sep s.data []

/-- Errors raised by the config-store functions of `cluster.py`:
`unknownKey` is the `ValueError('Unknown configuration option: …')`,
`invalidPath` is the `ValueError('… is not found in config.json …')`
raised during dotted-path navigation, and `attrError` is the
`AttributeError` raised by `config_json[k].update(v)` when the existing
value is not a dict. -/
inductive CfgErr where
  | unknownKey (k : String)
  | invalidPath (part : String)
  | attrError (k : String)
  deriving Repr, DecidableEq

/-- The dotted-path navigation loop of `apply_config_changes`: for all but
the last path segment, fail if the segment is absent, coerce a non-dict
value to an empty dict, and descend; finally assign the last segment. -/
def setPath : Dict → List String → JVal → Except CfgErr Dict
  | d, [p], v => .ok (dset d p v)
  | d, p :: q :: rest, v =>
    match dget d p with
    | none => .error (.invalidPath p)
    | some w => (setPath (fieldsOr w) (q :: rest) v).map (fun f => dset d p (.obj f))
  | _, [], _ => .error (.invalidPath "")

/-- The `allowed_missing_configs` tuple of `apply_config_changes`, verbatim. -/
def allowedMissingConfigs : List String :=
  [ "archive",
    "consensus.block_fetch_horizon",
    "consensus.block_header_fetch_horizon",
    "consensus.min_block_production_delay",
    "consensus.max_block_production_delay",
    "consensus.max_block_wait_delay",
    "consensus.state_sync_external_timeout",
    "consensus.state_sync_external_backoff",
    "consensus.state_sync_p2p_timeout",
    "expected_shutdown",
    "log_summary_period",
    "max_gas_burnt_view",
    "rosetta_rpc",
    "save_trie_changes",
    "save_tx_outcomes",
    "split_storage",
    "state_sync",
    "state_sync_enabled",
    "store.state_snapshot_config.state_snapshot_type",
    "tracked_shard_schedule",
    "tracked_shards_config.Schedule",
    "tracked_shards_config.ShadowValidator",
    "cold_store",
    "store.load_mem_tries_for_tracked_shards" ]

/-- The body of the per-key loop of `apply_config_changes`: the unknown-key
gate, then either the one-level dict merge (when the key is present and the
override value is a dict) or the dotted-path assignment. -/
def applyOne (d : Dict) (k : String) (v : JVal) : Except CfgErr Dict :=
  if !(allowedMissingConfigs.contains k || dmem d k) then
    .error (.unknownKey k)
  else if dmem d k && isObjB v then
    match dget d k with
    | some (.obj h) => .ok (dset d k (.obj (dupdate h (fieldsOr v))))
    | _ => .error (.attrError k)
  else
    setPath d (splitChar '.' k) v

/-- The whole loop of `apply_config_changes` over the in-memory document:
keys are processed in insertion order and the first error aborts. -/
def applyAll (d : Dict) : List (String × JVal) → Except CfgErr Dict
  | [] => .ok d
  | kv :: rest =>
    match applyOne d kv.1 kv.2 with
    | .ok e => applyAll e rest
    | .error err => .error err

/-- The on-disk document after one call of `apply_config_changes`: the file
is rewritten only after the loop finishes, so an error leaves it unchanged. -/
def applyDisk (d : Dict) (ov : List (String × JVal)) : Dict :=
  match applyAll d ov with
  | .ok e => e
  | .error _ => d

mutual

/-- Well-formedness of a JSON value: every object reachable through object
fields has pairwise-distinct keys.  Every document produced by `json.load`
satisfies this, since Python dicts cannot hold a key twice. -/
def wfv : JVal → Bool
  | .obj f => wfd f
  | _ => true

/-- Well-formedness of a dict: distinct keys, and well-formed values. -/
def wfd : Dict → Bool
  | [] => true
  | (k, v) :: rest => !(dmem rest k) && wfv v && wfd rest

end

/-! ### Ports and addresses (`spin_up_node`, `LocalNode.addr`) -/

/-- The p2p port passed to `LocalNode` by `spin_up_node`: `24567 + 10 + ordinal`. -/
def nodePort (ordinal : Nat) : Nat :=
  24567 + 10 + ordinal

/-- The rpc port passed to `LocalNode` by `spin_up_node`: `3030 + 10 + ordinal`. -/
def nodeRpcPort (ordinal : Nat) : Nat :=
  3030 + 10 + ordinal

/-- A host/port pair as returned by `addr` and `rpc_addr`. -/
structure Addr where
  host : String
  port : Nat
  deriving Repr, DecidableEq

/-- `LocalNode.addr` for the node spun up with ordinal `n`:
`("127.0.0.1", self.port)` with the port from `spin_up_node`. -/
def localNodeAddr (ordinal : Nat) : Addr :=
  ⟨"127.0.0.1", nodePort ordinal⟩

/-- `LocalNode.rpc_addr` for the node spun up with ordinal `n`. -/
def localNodeRpcAddr (ordinal : Nat) : Addr :=
  ⟨"127.0.0.1", nodeRpcPort ordinal⟩

/-! ### Boot-node arguments (`make_boot_nodes_arg`, `BaseNode.addr_with_pk`) -/

/-- The data of a node handle used by `addr_with_pk`: the node key public
key string (of shape `ed25519:<hash>`) and the p2p address. -/
structure NodeHandle where
  nodeKeyPk : String
  host : String
  port : Nat
  deriving Repr, DecidableEq

/-- `BaseNode.addr_with_pk`: `'{}@{}:{}'.format(pk_hash, host, port)` with
`pk_hash = self.node_key.pk.split(':')[1]`. -/
def addrWithPk (n : NodeHandle) : String :=
  ((splitChar ':' n.nodeKeyPk).getD 1 "") ++ "@" ++ n.host ++ ":" ++ toString n.port

/-- The `boot_node` argument: `None`, a single node handle, or an iterable
of node handles. -/
inductive BootNode where
  | none
  | single (n : NodeHandle)
  | many (ns : List NodeHandle)
  deriving Repr, DecidableEq

/-- Python truthiness test `not boot_node`: `None` is falsy, an object is
truthy, a list is falsy exactly when empty. -/
def bootNodeFalsy : BootNode → Bool
  | .none => true
  | .single _ => false
  | .many ns => ns.isEmpty

/-- The iteration performed by `make_boot_nodes_arg`: `iter(boot_node)`,
falling back to `iter((boot_node,))` on `TypeError` for a single node. -/
def bootNodeIter : BootNode → List NodeHandle
  | .none => []
  | .single n => [n]
  | .many ns => ns

/-- `make_boot_nodes_arg`: empty tuple for a falsy argument, otherwise the
`--boot-nodes` flag with the comma-joined `addr_with_pk` entries (and the
empty tuple again if the joined string is empty). -/
def makeBootNodesArg (b : BootNode) : List String :=
  if bootNodeFalsy b then []
  else
    let nodes := String.intercalate "," ((bootNodeIter b).map addrWithPk)
    if nodes = "" then [] else ["--boot-nodes", nodes]

/-! ### `LocalNode.kill` -/

/-- Behaviour of the underlying OS process: whether it exits within the
5-second `wait` that follows SIGINT.  A SIGKILL always terminates it. -/
structure ProcBehavior where
  exitsOnSigint : Bool
  deriving Repr, DecidableEq

/-- The part of a `LocalNode` state that `kill` touches: `self._process`
(present iff a process handle is held) and `self._proxy_local_stopped`. -/
structure LocalProcState where
  process : Option ProcBehavior
  proxyLocalStopped : Option Int
  deriving Repr, DecidableEq

/-- Observable process-control actions emitted by `kill`. -/
inductive KillAction where
  | sigint
  | waitUpTo (secs : Nat)
  | forceKill
  deriving Repr, DecidableEq

/-- `LocalNode.kill(gentle=...)`: set the proxy flag, then if gentle send
SIGINT and wait up to 5 seconds, then force-kill whatever is still
running.  Returns the new handle state and the emitted actions. -/
def localKill (s : LocalProcState) (gentle : Bool) : LocalProcState × List KillAction :=
  let proxy := s.proxyLocalStopped.map (fun _ => (1 : Int))
  match s.process with
  | Option.none => (⟨Option.none, proxy⟩, [])
  | some p =>
    if gentle then
      if p.exitsOnSigint then (⟨Option.none, proxy⟩, [.sigint, .waitUpTo 5])
      else (⟨Option.none, proxy⟩, [.sigint, .waitUpTo 5, .forceKill, .waitUpTo 5])
    else (⟨Option.none, proxy⟩, [.forceKill, .waitUpTo 5])

/-! ### `nretry` -/

/-- The loop of `nretry`, with time made explicit: `attempt n` is the
outcome of the n-th invocation of `fn` (counting from 0) and `dur n` the
wall-clock time that invocation takes; `clock` is `time.time() - started`
and `delay` the current backoff.  `fuel` bounds the number of modelled
iterations; `none` means the model ran out of fuel, not that the code
returned. -/
def nretryGo {ε α : Type} (attempt : Nat → Except ε α) (dur : Nat → ℚ) (timeout : ℚ) :
    Nat → Nat → ℚ → ℚ → Option (Except ε α × List ℚ)
  | 0, _, _, _ => Option.none
  | fuel + 1, n, clock, delay =>
    let clock := clock + dur n
    match attempt n with
    | .ok a => some (.ok a, [])
    | .error e =>
      if timeout ≤ clock then some (.error e, [])
      else
        match nretryGo attempt dur timeout fuel (n + 1) (clock + delay) (delay * (6 / 5)) with
        | Option.none => Option.none
        | some (res, sleeps) => some (res, delay :: sleeps)

/-- `nretry(fn, timeout)`: run the loop from a fresh clock with the initial
50 ms backoff.  The second component lists the delays actually slept. -/
def nretry {ε α : Type} (attempt : Nat → Except ε α) (dur : Nat → ℚ) (timeout : ℚ)
    (fuel : Nat) : Option (Except ε α × List ℚ) :=
  nretryGo attempt dur timeout fuel 0 0 (1 / 20)

/-- The backoff slept after the n-th failed attempt (counting from 0):
50 ms times 1.2 to the n. -/
def backoff (n : Nat) : ℚ :=
  (1 / 20) * (6 / 5) ^ n

/-! ### Cleanup (`LocalNode.cleanup`, `GCloudNode.cleanup`) -/

/-- The directories that exist on the filesystem (or, for the remote node,
on the orchestrator host where the node dir lives). -/
structure Fs where
  dirs : List String
  deriving Repr, DecidableEq

/-- Observable teardown actions. -/
inductive CleanupAction where
  | killProc
  | rmtree (dir : String)
  | rename (src dst : String)
  | outputLogs
  | downloadLog
  | deleteMachine
  deriving Repr, DecidableEq

/-- `os.rename`: fails if the source does not exist. -/
def fsRename (fs : Fs) (src dst : String) : Except String Fs :=
  if fs.dirs.contains src then .ok ⟨(fs.dirs.erase src) ++ [dst]⟩
  else .error "FileNotFoundError"

/-- `shutil.rmtree` guarded by the existence check in `cleanup`. -/
def fsRmtreeIfExists (fs : Fs) (dir : String) : Fs × List CleanupAction :=
  if fs.dirs.contains dir then (⟨fs.dirs.erase dir⟩, [.rmtree dir]) else (fs, [])

/-- The part of a `LocalNode` state that `cleanup` touches. -/
structure LocalNodeState where
  cleaned : Bool
  nodeDir : String
  proc : LocalProcState
  deriving Repr, DecidableEq

/-- `LocalNode.cleanup`: return immediately when already cleaned; otherwise
kill, remove a stale `_finished` directory, rename the node directory to
the `_finished` name, remember the new directory, log, and set the flag. -/
def localCleanup (fs : Fs) (s : LocalNodeState) :
    Except String (Fs × LocalNodeState × List CleanupAction) :=
  if s.cleaned then .ok (fs, s, [])
  else
    let target := s.nodeDir ++ "_finished"
    let procAfter := (localKill s.proc false).1
    let fsActs := fsRmtreeIfExists fs target
    match fsRename fsActs.1 s.nodeDir target with
    | .error e => .error e
    | .ok fs2 =>
      .ok (fs2,
           { s with cleaned := true, nodeDir := target, proc := procAfter },
           [CleanupAction.killProc] ++ fsActs.2 ++ [.rename s.nodeDir target, .outputLogs])

/-- The part of a `GCloudNode` state that `cleanup` touches.  There is no
`cleaned` flag, and `self.node_dir` is never reassigned. -/
structure GCloudNodeState where
  nodeDir : String
  machineDeleted : Bool
  deriving Repr, DecidableEq

/-- `GCloudNode.cleanup`: kill, remove a stale `_finished` directory,
rename the node directory (without updating `self.node_dir`), download the
log and destroy the machine.  No guard flag is consulted. -/
def gcloudCleanup (fs : Fs) (s : GCloudNodeState) :
    Except String (Fs × GCloudNodeState × List CleanupAction) :=
  let target := s.nodeDir ++ "_finished"
  let fsActs := fsRmtreeIfExists fs target
  match fsRename fsActs.1 s.nodeDir target with
  | .error e => .error e
  | .ok fs2 =>
    .ok (fs2,
         { s with machineDeleted := true },
         [CleanupAction.killProc] ++ fsActs.2 ++
           [.rename s.nodeDir target, .downloadLog, .deleteMachine])

/-! ### `GCloudNode.get_status` -/

/-- Python values relevant to `GCloudNode.get_status`: the bound method
object `self.get_status_impl` and an HTTP response object. -/
inductive PyVal where
  | boundMethod (name : String)
  | httpResponse (status : Nat) (content : String)
  deriving Repr, DecidableEq

/-- Python exceptions relevant to `GCloudNode.get_status`. -/
inductive PyErr where
  | attributeError (attr : String)
  | httpError (status : Nat)
  deriving Repr, DecidableEq

/-- The retried thunk `lambda: self.get_status_impl`: it evaluates to the
bound method object itself — the method is never called, so no HTTP
request happens and the thunk never raises. -/
def getStatusThunk : Nat → Except PyErr PyVal :=
  fun _ => .ok (.boundMethod "get_status_impl")

/-- The attribute access `r.raise_for_status()` on the value produced by
the thunk: a method object has no `raise_for_status` attribute, so Python
raises `AttributeError`; a response object checks its HTTP status. -/
def raiseForStatus : PyVal → Except PyErr Unit
  | .boundMethod _ => .error (.attributeError "raise_for_status")
  | .httpResponse status _ =>
    if 200 ≤ status ∧ status < 300 then .ok () else .error (.httpError status)

/-- `GCloudNode.get_status`: `r = nretry(lambda: self.get_status_impl,
timeout=45)`, then `r.raise_for_status()`, then `json.loads(r.content)`.
The final arm of the outer match is unreachable for positive fuel since
the thunk succeeds immediately. -/
def gcloudGetStatus (dur : Nat → ℚ) (fuel : Nat) : Except PyErr String :=
  match nretry getStatusThunk dur 45 fuel with
  | some (.ok r, _) =>
    match raiseForStatus r with
    | .ok () =>
      match r with
      | .httpResponse _ content => .ok content
      | .boundMethod _ => .error (.attributeError "content")
    | .error e => .error e
  | some (.error e, _) => .error e
  | Option.none => .error (.attributeError "out-of-fuel")

/-- Durations of the attempts `n, …, n + j` summed. -/
def durSum (dur : Nat → ℚ) (n j : Nat) : ℚ :=
  ∑ t ∈ Finset.range (j + 1), dur (n + t)

/-- Backoffs slept after the failures of attempts `n, …, n + j - 1` summed. -/
def backSum (n j : Nat) : ℚ :=
  ∑ t ∈ Finset.range j, backoff (n + t)

/-- The value of `time.time() - started` when the failure of the j-th
attempt (counting from 0) is compared against the budget. -/
def failClock (dur : Nat → ℚ) (j : Nat) : ℚ :=
  durSum dur 0 j + backSum 0 j

/-! ### Field-level view of `apply_config_changes` (used to settle the
idempotence claim): the per-key loop decomposes, per top-level key of the
document, into a sequence of field operations. -/

/-- Operations induced on the value stored at one top-level key: a
wholesale set (`config_json[k] = v` or a one-segment path), a one-level
merge (`config_json[k].update(v)`), and a coercing deep set along the
remaining dotted path. -/
inductive FOp where
  | fset (c : JVal)
  | fmerge (m : Dict)
  | fdeep (q1 : String) (qs : List String) (v : JVal)

/-- Apply one field operation to the value (or absence) at the field
named `f`. -/
def fApp (f : String) (x : Option JVal) : FOp → Except CfgErr (Option JVal)
  | .fset c => .ok (some c)
  | .fmerge m =>
    match x with
    | some (.obj h) => .ok (some (.obj (dupdate h m)))
    | _ => .error (.attrError f)
  | .fdeep q1 qs v =>
    match x with
    | Option.none => .error (.invalidPath f)
    | some w => (setPath (fieldsOr w) (q1 :: qs) v).map (fun g => some (.obj g))

/-- Fold a list of field operations over a field value. -/
def fFold (f : String) (x : Option JVal) : List FOp → Except CfgErr (Option JVal)
  | [] => .ok x
  | op :: rest =>
    match fApp f x op with
    | .ok y => fFold f y rest
    | .error e => .error e

/-- A dotted-path write at the level of a single object, with the leading
segment split off. -/
structure NOp where
  hd : String
  tl : List String
  v : JVal

/-- Apply one node operation: `setPath` on the object's fields. -/
def nApp (φ : Dict) (o : NOp) : Except CfgErr Dict :=
  setPath φ (o.hd :: o.tl) o.v

/-- Fold node operations over an object's fields. -/
def nFold (φ : Dict) : List NOp → Except CfgErr Dict
  | [] => .ok φ
  | o :: rest =>
    match nApp φ o with
    | .ok ψ => nFold ψ rest
    | .error e => .error e

/-- Project node operations onto the field they touch. -/
def projN (f : String) : List NOp → List FOp
  | [] => []
  | o :: rest =>
    if o.hd = f then
      (match o.tl with
       | [] => FOp.fset o.v
       | t1 :: ts => FOp.fdeep t1 ts o.v) :: projN f rest
    else projN f rest

/-- Convert a list of all-deep field operations into node operations. -/
def toN : List FOp → List NOp
  | [] => []
  | .fdeep q1 qs v :: rest => ⟨q1, qs, v⟩ :: toN rest
  | _ :: rest => toN rest

/-- The field operations one override entry `(k, v)` performs at the
top-level key `f`, resolving the update-vs-path branch with the membership
oracle `dom`. -/
def headOps (dom : String → Bool) (f k : String) (v : JVal) : List FOp :=
  if dom k && isObjB v then
    (if k = f then [FOp.fmerge (fieldsOr v)] else [])
  else
    (match splitChar '.' k with
     | [] => []
     | p :: ps =>
       if p = f then
         [(match ps with
           | [] => FOp.fset v
           | t1 :: ts => FOp.fdeep t1 ts v)]
       else [])

/-- Project the per-key loop onto the field operations it performs at one
top-level key, resolving the update-vs-path branch with the membership
oracle `dom` (instantiated with membership in the initial document; with
distinct override keys this matches the branch taken at runtime). -/
def projTop (dom : String → Bool) (f : String) : List (String × JVal) → List FOp
  | [] => []
  | (k, v) :: rest => headOps dom f k v ++ projTop dom f rest

/-- Size of a field operation: the length of its residual path. -/
def fSize : FOp → Nat
  | .fset _ => 0
  | .fmerge _ => 0
  | .fdeep _ qs _ => qs.length + 1

/-- Total size of a list of field operations. -/
def fSizeL (L : List FOp) : Nat :=
  (L.map fSize).sum

/-- Size of a node operation. -/
def nSize (o : NOp) : Nat :=
  o.tl.length + 1

/-- Total size of a list of node operations. -/
def nSizeL (N : List NOp) : Nat :=
  (N.map nSize).sum

/-- A deep field operation. -/
def isDeepOp : FOp → Bool
  | .fdeep _ _ _ => true
  | _ => false

/-- Well-formedness of the payload of a field operation. -/
def fOpWf : FOp → Bool
  | .fset c => wfv c
  | .fmerge m => wfd m
  | .fdeep _ _ v => wfv v

/-- Well-formedness of an optional value. -/
def wfOpt : Option JVal → Bool
  | Option.none => true
  | some w => wfv w

/-! ## Theorems -/

theorem backoff_succ (n : Nat) : backoff n * (6 / 5) = backoff (n + 1) := by
  simp [backoff, pow_succ, mul_assoc]

theorem durSum_zero (dur : Nat → ℚ) (n : Nat) : durSum dur n 0 = dur n := by
  simp [durSum]

theorem backSum_zero (n : Nat) : backSum n 0 = 0 := by
  simp [backSum]

theorem durSum_succ_shift (dur : Nat → ℚ) (n j : Nat) :
    durSum dur n (j + 1) = dur n + durSum dur (n + 1) j := by
  rw [durSum, Finset.sum_range_succ', add_comm]
  simp only [Nat.add_zero, durSum]
  congr 1
  apply Finset.sum_congr rfl
  intro t _
  congr 1
  omega

theorem backSum_succ_shift (n j : Nat) :
    backSum n (j + 1) = backoff n + backSum (n + 1) j := by
  rw [backSum, Finset.sum_range_succ', add_comm]
  simp only [Nat.add_zero, backSum]
  congr 1
  apply Finset.sum_congr rfl
  intro t _
  congr 1
  omega

theorem range_map_backoff_shift (n i : Nat) :
    (List.range (i + 1)).map (fun j => backoff (n + j)) =
      backoff n :: (List.range i).map (fun j => backoff (n + 1 + j)) := by
  rw [List.range_succ_eq_map]
  simp only [List.map_cons, List.map_map, Nat.add_zero]
  congr 1
  apply List.map_congr_left
  intro t _
  simp only [Function.comp_apply]
  congr 1
  omega

theorem nretryGo_success {ε α : Type} (attempt : Nat → Except ε α) (dur : Nat → ℚ)
    (timeout : ℚ) :
    ∀ (i fuel n : Nat) (c : ℚ) (a : α), i < fuel →
      (∀ j, j < i → ∃ e, attempt (n + j) = .error e) →
      (∀ j, j < i → c + durSum dur n j + backSum n j < timeout) →
      attempt (n + i) = .ok a →
      nretryGo attempt dur timeout fuel n c (backoff n) =
        some (.ok a, (List.range i).map (fun j => backoff (n + j))) := by
  intro i
  induction i with
  | zero =>
    intro fuel n c a hfuel _ _ hok
    match fuel, hfuel with
    | fuel + 1, _ =>
      simp only [nretryGo]
      rw [show n + 0 = n from rfl] at hok
      rw [hok]
      simp
  | succ i ih =>
    intro fuel n c a hfuel hfail hclock hok
    match fuel, hfuel with
    | fuel + 1, hfuel =>
      simp only [nretryGo]
      obtain ⟨e, he⟩ := hfail 0 (Nat.succ_pos i)
      rw [show n + 0 = n from rfl] at he
      rw [he]
      have hc0 : c + dur n < timeout := by
        have := hclock 0 (Nat.succ_pos i)
        rw [durSum_zero, backSum_zero] at this
        linarith
      have hnotle : ¬ timeout ≤ c + dur n := not_le.mpr hc0
      simp only [hnotle, if_false]
      rw [backoff_succ n]
      have hrec := ih fuel (n + 1) (c + dur n + backoff n) a
        (Nat.lt_of_succ_lt_succ hfuel)
        (fun j hj => by
          obtain ⟨e1, he1⟩ := hfail (j + 1) (Nat.succ_lt_succ hj)
          exact ⟨e1, by rw [show n + 1 + j = n + (j + 1) from by omega]; exact he1⟩)
        (fun j hj => by
          have := hclock (j + 1) (Nat.succ_lt_succ hj)
          rw [durSum_succ_shift, backSum_succ_shift] at this
          linarith)
        (by rw [show n + 1 + i = n + (i + 1) from by omega]; exact hok)
      rw [hrec, range_map_backoff_shift]

theorem nretryGo_exhaust {ε α : Type} (attempt : Nat → Except ε α) (dur : Nat → ℚ)
    (timeout : ℚ) :
    ∀ (i fuel n : Nat) (c : ℚ) (e : ε), i < fuel →
      (∀ j, j < i → ∃ e, attempt (n + j) = .error e) →
      (∀ j, j < i → c + durSum dur n j + backSum n j < timeout) →
      attempt (n + i) = .error e →
      timeout ≤ c + durSum dur n i + backSum n i →
      nretryGo attempt dur timeout fuel n c (backoff n) =
        some (.error e, (List.range i).map (fun j => backoff (n + j))) := by
  intro i
  induction i with
  | zero =>
    intro fuel n c e hfuel _ _ herr hto
    match fuel, hfuel with
    | fuel + 1, _ =>
      simp only [nretryGo]
      rw [show n + 0 = n from rfl] at herr
      rw [herr]
      rw [durSum_zero, backSum_zero] at hto
      have : timeout ≤ c + dur n := by linarith
      simp [this]
  | succ i ih =>
    intro fuel n c e hfuel hfail hclock herr hto
    match fuel, hfuel with
    | fuel + 1, hfuel =>
      simp only [nretryGo]
      obtain ⟨e0, he0⟩ := hfail 0 (Nat.succ_pos i)
      rw [show n + 0 = n from rfl] at he0
      rw [he0]
      have hc0 : c + dur n < timeout := by
        have := hclock 0 (Nat.succ_pos i)
        rw [durSum_zero, backSum_zero] at this
        linarith
      have hnotle : ¬ timeout ≤ c + dur n := not_le.mpr hc0
      simp only [hnotle, if_false]
      rw [backoff_succ n]
      have hrec := ih fuel (n + 1) (c + dur n + backoff n) e
        (Nat.lt_of_succ_lt_succ hfuel)
        (fun j hj => by
          obtain ⟨e1, he1⟩ := hfail (j + 1) (Nat.succ_lt_succ hj)
          exact ⟨e1, by rw [show n + 1 + j = n + (j + 1) from by omega]; exact he1⟩)
        (fun j hj => by
          have := hclock (j + 1) (Nat.succ_lt_succ hj)
          rw [durSum_succ_shift, backSum_succ_shift] at this
          linarith)
        (by rw [show n + 1 + i = n + (i + 1) from by omega]; exact herr)
        (by
          rw [durSum_succ_shift, backSum_succ_shift] at hto
          linarith)
      rw [hrec, range_map_backoff_shift]

theorem backoff_zero : backoff 0 = 1 / 20 := by
  simp [backoff]

theorem intercalateGo_length (s : String) :
    ∀ (l : List String) (a : String), a.length ≤ (String.intercalate.go a s l).length := by
  intro l
  induction l with
  | nil => intro a; simp [String.intercalate.go]
  | cons b l ih =>
    intro a
    have h := ih (a ++ s ++ b)
    simp only [String.intercalate.go]
    have : a.length ≤ (a ++ s ++ b).length := by
      rw [String.length_append, String.length_append]
      omega
    omega

theorem intercalate_head_length (s a : String) (l : List String) :
    a.length ≤ (String.intercalate s (a :: l)).length := by
  simp only [String.intercalate]
  exact intercalateGo_length s l a

theorem addrWithPk_length_pos (n : NodeHandle) : 0 < (addrWithPk n).length := by
  simp only [addrWithPk, String.length_append]
  have : ("@" : String).length = 1 := rfl
  omega

theorem append_finished_ne (s : String) : s ++ "_finished" ≠ s := by
  intro h
  have hlen := congrArg String.length h
  rw [String.length_append] at hlen
  have h9 : ("_finished" : String).length = 9 := rfl
  omega

/-- C5: `spin_up_node` builds a local node at host `127.0.0.1`, but its
ports are `base + 10 + ordinal`, not `base + 10 × (ordinal + 1)`: already
at ordinal 1 the p2p port is 24578, not 24587, and the rpc port is 3041,
not 3050. -/
theorem claim_C5_counterexample :
    (localNodeAddr 1).port ≠ 24567 + 10 * (1 + 1) ∧
    (nodeRpcPort 1) ≠ 3030 + 10 * (1 + 1) := by
  constructor <;> decide

/-- C5 amended: every locally spun-up node gets host `127.0.0.1`, p2p port
`24567 + 10 + ordinal` and rpc port `3030 + 10 + ordinal`, and distinct
ordinals get distinct, non-colliding ports. -/
theorem claim_C5_ports :
    (∀ n, localNodeAddr n = ⟨"127.0.0.1", 24567 + 10 + n⟩) ∧
    (∀ n, localNodeRpcAddr n = ⟨"127.0.0.1", 3030 + 10 + n⟩) ∧
    (∀ m n, m ≠ n → nodePort m ≠ nodePort n ∧ nodeRpcPort m ≠ nodeRpcPort n) := by
  refine ⟨fun n => rfl, fun n => rfl, fun m n hmn => ⟨?_, ?_⟩⟩ <;>
    (simp only [nodePort, nodeRpcPort]; omega)

/-- C5 witness: the amended statement evaluated at ordinals 1 and 2. -/
theorem claim_C5_ports_witness :
    localNodeAddr 1 = ⟨"127.0.0.1", 24578⟩ ∧ nodePort 1 ≠ nodePort 2 := by
  exact ⟨claim_C5_ports.1 1, (claim_C5_ports.2.2 1 2 (by decide)).1⟩

/-- C6: an empty iterable of boot nodes produces the empty argument tuple,
not a `--boot-nodes` flag with an empty join, so the claim fails at N = 0. -/
theorem claim_C6_counterexample :
    makeBootNodesArg (BootNode.many []) = [] ∧
    makeBootNodesArg (BootNode.many []) ≠
      ["--boot-nodes", String.intercalate "," (([] : List NodeHandle).map addrWithPk)] := by
  constructor
  · rfl
  · intro h
    simp only [makeBootNodesArg, bootNodeFalsy, List.isEmpty_nil, if_true] at h
    exact absurd h (by simp)

/-- C6 amended: `make_boot_nodes_arg(None)` is the empty tuple, and so is
the result for an empty iterable; for a nonempty iterable of N handles the
result is a single `--boot-nodes` argument whose value comma-joins the N
`addr_with_pk` entries in input order, each of shape
`<pubkey-hash>@<host>:<port>`. -/
theorem claim_C6_boot_nodes_arg :
    makeBootNodesArg BootNode.none = [] ∧
    makeBootNodesArg (BootNode.many []) = [] ∧
    (∀ ns : List NodeHandle, ns ≠ [] →
      makeBootNodesArg (BootNode.many ns) =
        ["--boot-nodes", String.intercalate "," (ns.map addrWithPk)]) ∧
    (∀ n : NodeHandle, addrWithPk n =
      ((splitChar ':' n.nodeKeyPk).getD 1 "") ++ "@" ++ n.host ++ ":" ++ toString n.port) := by
  refine ⟨rfl, rfl, ?_, fun n => rfl⟩
  intro ns hns
  match ns, hns with
  | n0 :: rest, _ =>
    simp only [makeBootNodesArg, bootNodeFalsy, bootNodeIter, List.isEmpty_cons,
      Bool.false_eq_true, if_false, List.map_cons]
    have hne : String.intercalate "," (addrWithPk n0 :: rest.map addrWithPk) ≠ "" := by
      intro h
      have h1 := intercalate_head_length "," (addrWithPk n0) (rest.map addrWithPk)
      have h2 := addrWithPk_length_pos n0
      rw [h] at h1
      simp at h1
      omega
    simp [hne]

/-- C6 witness: the amended statement at a concrete single boot node. -/
theorem claim_C6_boot_nodes_arg_witness :
    makeBootNodesArg (BootNode.many [⟨"ed25519:PKHASH", "127.0.0.1", 24577⟩]) =
      ["--boot-nodes", "PKHASH@127.0.0.1:24577"] := by
  rw [claim_C6_boot_nodes_arg.2.2.1 [⟨"ed25519:PKHASH", "127.0.0.1", 24577⟩] (by simp)]
  rfl

theorem localKill_stopped (t : LocalProcState) (g : Bool) (h : t.process = Option.none) :
    localKill t g = (⟨Option.none, t.proxyLocalStopped.map fun _ => 1⟩, []) := by
  cases g <;> simp [localKill, h]

/-- C7: `LocalNode.kill(gentle=True)` first sends SIGINT and waits up to 5
seconds; a process that ignores SIGINT is then force-killed; in both cases
the handle records no running process afterwards and no error occurs; on a
handle with no running process `kill` sends nothing, and killing twice is
a no-op the second time. -/
theorem claim_C7_kill :
    (∀ (s : LocalProcState) (p : ProcBehavior), s.process = some p →
      p.exitsOnSigint = false →
      localKill s true =
        (⟨Option.none, s.proxyLocalStopped.map fun _ => 1⟩,
         [.sigint, .waitUpTo 5, .forceKill, .waitUpTo 5])) ∧
    (∀ (s : LocalProcState) (p : ProcBehavior), s.process = some p →
      p.exitsOnSigint = true →
      localKill s true =
        (⟨Option.none, s.proxyLocalStopped.map fun _ => 1⟩, [.sigint, .waitUpTo 5])) ∧
    (∀ (s : LocalProcState) (g : Bool), s.process = Option.none →
      localKill s g = (⟨Option.none, s.proxyLocalStopped.map fun _ => 1⟩, [])) ∧
    (∀ (s : LocalProcState) (g g2 : Bool),
      localKill (localKill s g).1 g2 = ((localKill s g).1, [])) := by
  refine ⟨?_, ?_, ?_, ?_⟩
  · intro s p hp hig
    simp [localKill, hp, hig]
  · intro s p hp hig
    simp [localKill, hp, hig]
  · intro s g hp
    exact localKill_stopped s g hp
  · intro s g g2
    have hnone : (localKill s g).1.process = Option.none := by
      rcases hs : s.process with _ | p
      · cases g <;> simp [localKill, hs]
      · cases g <;> rcases hb : p.exitsOnSigint <;> simp [localKill, hs, hb]
    have hproxy : (localKill s g).1.proxyLocalStopped.map (fun _ => (1 : Int)) =
        (localKill s g).1.proxyLocalStopped := by
      have hfp : ((fun _ => (1 : Int)) ∘ fun _ : Int => (1 : Int)) = fun _ => (1 : Int) := rfl
      rcases hs : s.process with _ | p
      · cases g <;> simp [localKill, hs, Option.map_map, hfp]
      · cases g <;> rcases hb : p.exitsOnSigint <;>
          simp [localKill, hs, hb, Option.map_map, hfp]
    rw [localKill_stopped (localKill s g).1 g2 hnone]
    rcases ht : (localKill s g).1 with ⟨tp, tps⟩
    rw [ht] at hnone hproxy
    simp only at hnone hproxy
    rw [hnone, hproxy]

/-- C7 witness: the theorem applied to a running SIGINT-ignoring process
and to an already-stopped handle. -/
theorem claim_C7_kill_witness :
    localKill ⟨some ⟨false⟩, Option.none⟩ true =
      (⟨Option.none, Option.none⟩, [.sigint, .waitUpTo 5, .forceKill, .waitUpTo 5]) ∧
    localKill ⟨Option.none, Option.none⟩ true = (⟨Option.none, Option.none⟩, []) := by
  refine ⟨?_, ?_⟩
  · have h := claim_C7_kill.1 ⟨some ⟨false⟩, Option.none⟩ ⟨false⟩ rfl rfl
    simpa using h
  · have h := claim_C7_kill.2.2.1 ⟨Option.none, Option.none⟩ true rfl
    simpa using h

/-- C8: `nretry` keeps invoking the operation while swallowing exceptions;
the delay slept after the n-th failed attempt (counting from 0) is 50 ms
times 1.2 to the n; a success returns the operation's result; and when the
wall-clock budget has elapsed at the time of a failure, that last
exception propagates. -/
theorem claim_C8_nretry {ε α : Type} (attempt : Nat → Except ε α) (dur : Nat → ℚ)
    (timeout : ℚ) (i fuel : Nat) (hfuel : i < fuel)
    (hfail : ∀ j, j < i → ∃ e, attempt j = .error e)
    (hclock : ∀ j, j < i → failClock dur j < timeout) :
    (∀ a, attempt i = .ok a →
      nretry attempt dur timeout fuel = some (.ok a, (List.range i).map backoff)) ∧
    (∀ e, attempt i = .error e → timeout ≤ failClock dur i →
      nretry attempt dur timeout fuel = some (.error e, (List.range i).map backoff)) := by
  have hshift : ∀ j, (0 : ℚ) + durSum dur 0 j + backSum 0 j = failClock dur j := by
    intro j
    simp [failClock]
  have hmap : ((List.range i).map fun j => backoff (0 + j)) = (List.range i).map backoff := by
    apply List.map_congr_left
    intro t _
    rw [Nat.zero_add]
  constructor
  · intro a hok
    have h := nretryGo_success attempt dur timeout i fuel 0 0 a hfuel
      (fun j hj => by rw [Nat.zero_add]; exact hfail j hj)
      (fun j hj => by rw [hshift j]; exact hclock j hj)
      (by rw [Nat.zero_add]; exact hok)
    rw [nretry, show (1 / 20 : ℚ) = backoff 0 from backoff_zero.symm, h, hmap]
  · intro e herr hto
    have h := nretryGo_exhaust attempt dur timeout i fuel 0 0 e hfuel
      (fun j hj => by rw [Nat.zero_add]; exact hfail j hj)
      (fun j hj => by rw [hshift j]; exact hclock j hj)
      (by rw [Nat.zero_add]; exact herr)
      (by rw [hshift i]; exact hto)
    rw [nretry, show (1 / 20 : ℚ) = backoff 0 from backoff_zero.symm, h, hmap]

/-- C8 witness: one failing attempt taking 1 s, then success: the result is
returned and exactly the initial 50 ms backoff was slept. -/
theorem claim_C8_nretry_witness :
    nretry (fun j => if j = 0 then (Except.error "conn" : Except String Nat) else .ok 7)
      (fun _ => 1) 10 3 = some (.ok 7, [1 / 20]) := by
  have h := (claim_C8_nretry
    (fun j => if j = 0 then (Except.error "conn" : Except String Nat) else .ok 7)
    (fun _ => 1) 10 1 3 (by omega)
    (fun j hj => ⟨"conn", by simp [show j = 0 from by omega]⟩)
    (fun j hj => by
      rw [show j = 0 from by omega]
      rw [failClock, durSum_zero, backSum_zero]
      norm_num)).1 7 (by simp)
  rw [h]
  simp [List.range_succ, backoff_zero]

/-- C10: `GCloudNode.get_status` never returns a decoded status document:
the retried thunk evaluates to the bound method `get_status_impl` itself
instead of invoking it, so `raise_for_status` is looked up on a method
object and the call always fails with an `AttributeError`, performing no
HTTP status request. -/
theorem claim_C10_get_status (dur : Nat → ℚ) (fuel : Nat) (hfuel : 0 < fuel) :
    gcloudGetStatus dur fuel = .error (.attributeError "raise_for_status") := by
  match fuel, hfuel with
  | fuel + 1, _ =>
    simp [gcloudGetStatus, nretry, nretryGo, getStatusThunk, raiseForStatus]

/-- C10 witness: the theorem evaluated at fuel 1. -/
theorem claim_C10_get_status_witness :
    gcloudGetStatus (fun _ => 0) 1 = .error (.attributeError "raise_for_status") :=
  claim_C10_get_status (fun _ => 0) 1 (by decide)

/-- C9: `GCloudNode.cleanup` is not guarded by any already-cleaned flag: a
second invocation re-attempts the kill and the rename, and the rename then
fails because the node directory was already moved aside. -/
theorem claim_C9_counterexample :
    gcloudCleanup ⟨["n0"]⟩ ⟨"n0", false⟩ =
      .ok (⟨["n0_finished"]⟩, ⟨"n0", true⟩,
        [.killProc, .rename "n0" "n0_finished", .downloadLog, .deleteMachine]) ∧
    gcloudCleanup ⟨["n0_finished"]⟩ ⟨"n0", true⟩ = .error "FileNotFoundError" := by
  constructor <;> rfl

/-- C9 amended: `LocalNode.cleanup` is idempotent thanks to its `cleaned`
flag — a second call is a guarded no-op; `GCloudNode.cleanup` has no such
flag, and after a successful cleanup a second invocation always fails on
the directory rename. -/
theorem claim_C9_cleanup :
    (∀ fs s fs1 s1 acts, localCleanup fs s = .ok (fs1, s1, acts) →
      localCleanup fs1 s1 = .ok (fs1, s1, [])) ∧
    (∀ (fs : Fs) (s : GCloudNodeState) fs1 s1 acts, fs.dirs.Nodup →
      gcloudCleanup fs s = .ok (fs1, s1, acts) →
      gcloudCleanup fs1 s1 = .error "FileNotFoundError") := by
  constructor
  · intro fs s fs1 s1 acts h
    by_cases hc : s.cleaned
    · simp only [localCleanup, hc, if_true, Except.ok.injEq, Prod.mk.injEq] at h
      obtain ⟨h1, h2, h3⟩ := h
      subst h1; subst h2
      simp [localCleanup, hc]
    · simp only [localCleanup, hc, Bool.false_eq_true, if_false] at h
      rcases hr : fsRename (fsRmtreeIfExists fs (s.nodeDir ++ "_finished")).1 s.nodeDir
          (s.nodeDir ++ "_finished") with e | fs2
      · rw [hr] at h; exact absurd h (by simp)
      · rw [hr] at h
        simp only [Except.ok.injEq, Prod.mk.injEq] at h
        obtain ⟨h1, h2, h3⟩ := h
        subst h1; subst h2
        simp [localCleanup]
  · intro fs s fs1 s1 acts hnodup h
    simp only [gcloudCleanup] at h
    rcases hr : fsRename (fsRmtreeIfExists fs (s.nodeDir ++ "_finished")).1 s.nodeDir
        (s.nodeDir ++ "_finished") with e | fs2
    · rw [hr] at h; exact absurd h (by simp)
    · rw [hr] at h
      simp only [Except.ok.injEq, Prod.mk.injEq] at h
      obtain ⟨h1, h2, h3⟩ := h
      subst h1
      have hsdir : s1.nodeDir = s.nodeDir := by rw [← h2]
      set d1 := (fsRmtreeIfExists fs (s.nodeDir ++ "_finished")).1 with hd1
      have hd1nodup : d1.dirs.Nodup := by
        rw [hd1]
        simp only [fsRmtreeIfExists]
        split
        · exact hnodup.erase _
        · exact hnodup
      have hfs2 : fs2.dirs = (d1.dirs.erase s.nodeDir) ++ [s.nodeDir ++ "_finished"] := by
        simp only [fsRename] at hr
        split at hr
        · simp only [Except.ok.injEq] at hr
          rw [← hr]
        · exact absurd hr (by simp)
      have hnotmem : s.nodeDir ∉ fs2.dirs := by
        rw [hfs2]
        intro hmem
        rcases List.mem_append.mp hmem with hmem1 | hmem2
        · exact (List.Nodup.not_mem_erase hd1nodup) hmem1
        · rcases List.mem_singleton.mp hmem2 with heq
          exact append_finished_ne s.nodeDir heq.symm
      have htgt : s1.nodeDir ++ "_finished" = s.nodeDir ++ "_finished" := by rw [hsdir]
      simp only [gcloudCleanup, htgt, hsdir]
      have hnotmem2 : s.nodeDir ∉ (fsRmtreeIfExists fs2 (s.nodeDir ++ "_finished")).1.dirs := by
        simp only [fsRmtreeIfExists]
        split
        · intro hmem
          exact hnotmem (List.mem_of_mem_erase hmem)
        · exact hnotmem
      have hcontains : ((fsRmtreeIfExists fs2 (s.nodeDir ++ "_finished")).1.dirs.contains
          s.nodeDir) = false := by
        simpa using hnotmem2
      simp only [fsRename, hcontains, Bool.false_eq_true, if_false]

theorem keylist_cons (q : String) (w : JVal) (rest : Dict) :
    keylist ((q, w) :: rest) = q :: keylist rest := rfl

theorem dget_cons (q : String) (w : JVal) (rest : Dict) (k : String) :
    dget ((q, w) :: rest) k = if q = k then some w else dget rest k := rfl

theorem dset_cons (q : String) (w : JVal) (rest : Dict) (k : String) (v : JVal) :
    dset ((q, w) :: rest) k v =
      if q = k then (k, v) :: rest else (q, w) :: dset rest k v := rfl

theorem dget_dset_same (d : Dict) (k : String) (v : JVal) : dget (dset d k v) k = some v := by
  induction d with
  | nil => simp [dset, dget]
  | cons p rest ih =>
    rcases p with ⟨q, w⟩
    by_cases hq : q = k
    · rw [dset_cons, if_pos hq, dget_cons, if_pos rfl]
    · rw [dset_cons, if_neg hq, dget_cons, if_neg hq]
      exact ih

theorem dget_dset_other (d : Dict) (k q0 : String) (v : JVal) (h : q0 ≠ k) :
    dget (dset d k v) q0 = dget d q0 := by
  induction d with
  | nil =>
    simp only [dset, dget]
    rw [if_neg (fun hh => h hh.symm)]
  | cons p rest ih =>
    rcases p with ⟨q, w⟩
    by_cases hq : q = k
    · subst hq
      rw [dset_cons, if_pos rfl, dget_cons, dget_cons, if_neg (fun hh : q = q0 => h hh.symm),
        if_neg (fun hh : q = q0 => h hh.symm)]
    · rw [dset_cons, if_neg hq, dget_cons, dget_cons]
      by_cases hq0 : q = q0
      · rw [if_pos hq0, if_pos hq0]
      · rw [if_neg hq0, if_neg hq0]
        exact ih

theorem dget_eq_none_iff (d : Dict) (k : String) :
    dget d k = Option.none ↔ k ∉ keylist d := by
  induction d with
  | nil => simp [dget, keylist]
  | cons p rest ih =>
    rcases p with ⟨q, w⟩
    rw [dget_cons, keylist_cons]
    by_cases hq : q = k
    · subst hq
      simp
    · rw [if_neg hq, ih]
      simp [List.mem_cons, Ne.symm hq]

theorem dmem_iff_mem_keylist (d : Dict) (k : String) :
    dmem d k = true ↔ k ∈ keylist d := by
  rw [dmem]
  rcases h : dget d k with _ | v
  · rw [dget_eq_none_iff] at h
    simp [h]
  · have : k ∈ keylist d := by
      by_contra hmem
      rw [← dget_eq_none_iff] at hmem
      rw [h] at hmem
      exact Option.noConfusion hmem
    simp [this]

theorem dmem_false_iff (d : Dict) (k : String) :
    dmem d k = false ↔ k ∉ keylist d := by
  constructor
  · intro h hmem
    rw [← dmem_iff_mem_keylist] at hmem
    rw [h] at hmem
    exact Bool.noConfusion hmem
  · intro h
    rcases hb : dmem d k with _ | _
    · rfl
    · exact absurd ((dmem_iff_mem_keylist d k).mp hb) h

theorem keylist_dset_of_mem (d : Dict) (k : String) (v : JVal) (h : dmem d k = true) :
    keylist (dset d k v) = keylist d := by
  induction d with
  | nil => simp [dmem, dget] at h
  | cons p rest ih =>
    rcases p with ⟨q, w⟩
    by_cases hq : q = k
    · rw [dset_cons, if_pos hq, keylist_cons, keylist_cons, hq]
    · rw [dset_cons, if_neg hq, keylist_cons, keylist_cons]
      have h2 : dmem rest k = true := by
        rw [dmem_iff_mem_keylist] at h ⊢
        rw [keylist_cons] at h
        rcases List.mem_cons.mp h with hcontra | hok
        · exact absurd hcontra.symm hq
        · exact hok
      rw [ih h2]

theorem keylist_dset_of_not_mem (d : Dict) (k : String) (v : JVal) (h : dmem d k = false) :
    keylist (dset d k v) = keylist d ++ [k] := by
  induction d with
  | nil => simp [dset, keylist]
  | cons p rest ih =>
    rcases p with ⟨q, w⟩
    rw [dmem_false_iff, keylist_cons] at h
    by_cases hq : q = k
    · exact absurd (List.mem_cons_self q (keylist rest)) (hq ▸ h)
    · rw [dset_cons, if_neg hq, keylist_cons, keylist_cons]
      have h2 : dmem rest k = false := by
        rw [dmem_false_iff]
        intro hmem
        exact h (List.mem_cons_of_mem q hmem)
      rw [ih h2]
      rfl

theorem nodup_keylist_dset (d : Dict) (k : String) (v : JVal)
    (h : (keylist d).Nodup) : (keylist (dset d k v)).Nodup := by
  rcases hm : dmem d k with _ | _
  · rw [keylist_dset_of_not_mem d k v hm]
    rw [dmem_false_iff] at hm
    simp [List.nodup_append, h, hm]
  · rw [keylist_dset_of_mem d k v hm]
    exact h

theorem dupdate_cons (h : Dict) (a : String) (b : JVal) (vf : Dict) :
    dupdate h ((a, b) :: vf) = dupdate (dset h a b) vf := rfl

theorem dget_dupdate_not_mem (vf : Dict) :
    ∀ (h : Dict) (f : String), dmem vf f = false → dget (dupdate h vf) f = dget h f := by
  induction vf with
  | nil => intro h f _; rfl
  | cons p rest ih =>
    rcases p with ⟨a, b⟩
    intro h f hmem
    rw [dmem_false_iff, keylist_cons] at hmem
    have hne : f ≠ a := fun hcontra => hmem (hcontra ▸ List.mem_cons_self a (keylist rest))
    have hrest : dmem rest f = false := by
      rw [dmem_false_iff]
      intro hmem2
      exact hmem (List.mem_cons_of_mem a hmem2)
    rw [dupdate_cons, ih (dset h a b) f hrest, dget_dset_other h a f b hne]

theorem dget_dupdate_mem (vf : Dict) :
    ∀ (h : Dict) (f : String), (keylist vf).Nodup → dmem vf f = true →
      dget (dupdate h vf) f = dget vf f := by
  induction vf with
  | nil => intro h f _ hmem; simp [dmem, dget] at hmem
  | cons p rest ih =>
    rcases p with ⟨a, b⟩
    intro h f hnodup hmem
    rw [keylist_cons] at hnodup
    by_cases hfa : f = a
    · subst hfa
      have hrest : dmem rest f = false := by
        rw [dmem_false_iff]
        exact (List.nodup_cons.mp hnodup).1
      rw [dupdate_cons, dget_dupdate_not_mem rest (dset h f b) f hrest,
        dget_dset_same, dget_cons, if_pos rfl]
    · have hrest : dmem rest f = true := by
        rw [dmem_iff_mem_keylist] at hmem ⊢
        rw [keylist_cons] at hmem
        rcases List.mem_cons.mp hmem with hcontra | hok
        · exact absurd hcontra hfa
        · exact hok
      rw [dupdate_cons, ih (dset h a b) f (List.nodup_cons.mp hnodup).2 hrest,
        dget_cons, if_neg (fun hh => hfa hh.symm)]

theorem dict_ext : ∀ (a b : Dict), keylist a = keylist b → (keylist a).Nodup →
    (∀ k, dget a k = dget b k) → a = b := by
  intro a
  induction a with
  | nil =>
    intro b hk _ _
    rcases b with _ | ⟨⟨q, w⟩, b2⟩
    · rfl
    · rw [keylist_cons] at hk
      exact absurd hk (by simp [keylist])
  | cons p a2 ih =>
    rcases p with ⟨k, v⟩
    intro b hk hnodup hv
    rcases b with _ | ⟨⟨q, w⟩, b2⟩
    · rw [keylist_cons] at hk
      exact absurd hk (by simp [keylist])
    · rw [keylist_cons, keylist_cons] at hk
      have hkq : k = q := (List.cons.injEq _ _ _ _ ▸ hk).1
      subst hkq
      have hktail : keylist a2 = keylist b2 := (List.cons.injEq _ _ _ _ ▸ hk).2
      rw [keylist_cons] at hnodup
      have hnd := List.nodup_cons.mp hnodup
      have hvw : v = w := by
        have := hv k
        rw [dget_cons, dget_cons, if_pos rfl, if_pos rfl] at this
        exact Option.some.injEq _ _ ▸ this
      subst hvw
      have htail : a2 = b2 := by
        apply ih b2 hktail hnd.2
        intro q0
        by_cases hq0 : q0 = k
        · subst hq0
          have hna : q0 ∉ keylist a2 := hnd.1
          have hnb : q0 ∉ keylist b2 := hktail ▸ hnd.1
          rw [(dget_eq_none_iff a2 q0).mpr hna, (dget_eq_none_iff b2 q0).mpr hnb]
        · have := hv q0
          rw [dget_cons, dget_cons, if_neg (fun hh => hq0 hh.symm),
            if_neg (fun hh => hq0 hh.symm)] at this
          exact this
      rw [htail]

theorem splitCharAux_ne_nil (sep : Char) :
    ∀ (cs acc : List Char), splitCharAux sep cs acc ≠ [] := by
  intro cs
  induction cs with
  | nil => intro acc; simp [splitCharAux]
  | cons c cs ih =>
    intro acc
    by_cases hc : c = sep
    · simp [splitCharAux, hc]
    · simp only [splitCharAux, hc, if_false]
      exact ih (c :: acc)

theorem splitCharAux_single (sep : Char) :
    ∀ (cs acc : List Char) (x : String), splitCharAux sep cs acc = [x] →
      x = String.mk (acc.reverse ++ cs) := by
  intro cs
  induction cs with
  | nil =>
    intro acc x h
    simp only [splitCharAux, List.cons.injEq] at h
    simp [← h.1]
  | cons c cs ih =>
    intro acc x h
    by_cases hc : c = sep
    · simp only [splitCharAux, hc, if_pos] at h
      rcases hsplit : splitCharAux sep cs [] with _ | ⟨y, ys⟩
      · exact absurd hsplit (splitCharAux_ne_nil sep cs [])
      · rw [hsplit] at h
        exact absurd (congrArg List.length h) (by simp)
    · simp only [splitCharAux, hc, if_false] at h
      have := ih (c :: acc) x h
      simpa [List.append_assoc] using this

theorem splitChar_single (sep : Char) (s x : String) (h : splitChar sep s = [x]) :
    x = s := by
  have := splitCharAux_single sep s.data [] x h
  simpa using this

theorem setPath_keys (v : JVal) :
    ∀ (parts : List String) (d d1 : Dict), setPath d parts v = .ok d1 →
      keylist d1 = keylist d ∨
        ∃ p, parts = [p] ∧ dmem d p = false ∧ keylist d1 = keylist d ++ [p] := by
  intro parts
  match parts with
  | [] => intro d d1 h; exact absurd h (by simp [setPath])
  | [p] =>
    intro d d1 h
    simp only [setPath, Except.ok.injEq] at h
    subst h
    rcases hm : dmem d p with _ | _
    · exact Or.inr ⟨p, rfl, hm, keylist_dset_of_not_mem d p v hm⟩
    · exact Or.inl (keylist_dset_of_mem d p v hm)
  | p :: q :: rest =>
    intro d d1 h
    simp only [setPath] at h
    rcases hg : dget d p with _ | w
    · simp only [hg] at h
      exact Except.noConfusion h
    · simp only [hg] at h
      rcases hs : setPath (fieldsOr w) (q :: rest) v with e | f
      · simp only [hs, Except.map] at h
        exact Except.noConfusion h
      · simp only [hs, Except.map, Except.ok.injEq] at h
        subst h
        left
        apply keylist_dset_of_mem
        rw [dmem, hg]
        rfl

theorem applyOne_gate (d : Dict) (k : String) (v : JVal) (d1 : Dict)
    (h : applyOne d k v = .ok d1) :
    (allowedMissingConfigs.contains k || dmem d k) = true := by
  unfold applyOne at h
  split at h
  · exact Except.noConfusion h
  · rename_i hcond
    rw [Bool.or_eq_true]
    by_cases hka : k ∈ allowedMissingConfigs
    · exact Or.inl (by simpa using hka)
    · have hc2 : k ∉ allowedMissingConfigs → dmem d k = true := by simpa using hcond
      exact Or.inr (hc2 hka)

theorem applyOne_keys (d : Dict) (k : String) (v : JVal) (d1 : Dict)
    (h : applyOne d k v = .ok d1) :
    keylist d1 = keylist d ∨
      (dmem d k = false ∧ keylist d1 = keylist d ++ [k]) := by
  unfold applyOne at h
  split at h
  · exact Except.noConfusion h
  · split at h
    · rename_i hb
      have hmem : dmem d k = true := (Bool.and_eq_true _ _ ▸ hb).1
      split at h
      · injection h with h2
        subst h2
        exact Or.inl (keylist_dset_of_mem d k _ hmem)
      · exact Except.noConfusion h
    · rcases setPath_keys _ _ _ _ h with h1 | ⟨p, hp, hpm, hk⟩
      · exact Or.inl h1
      · have hps := splitChar_single _ _ _ hp
        subst hps
        exact Or.inr ⟨hpm, hk⟩
theorem applyOne_dmem_other (d : Dict) (k : String) (v : JVal) (d1 : Dict)
    (h : applyOne d k v = .ok d1) (q : String) (hq : q ≠ k) :
    dmem d1 q = dmem d q := by
  rcases applyOne_keys d k v d1 h with hk | ⟨_, hk⟩
  · rcases hm : dmem d q with _ | _
    · rw [dmem_false_iff] at hm ⊢; rw [hk]; exact hm
    · rw [dmem_iff_mem_keylist] at hm ⊢; rw [hk]; exact hm
  · rcases hm : dmem d q with _ | _
    · rw [dmem_false_iff] at hm ⊢
      rw [hk]
      intro hmem
      rcases List.mem_append.mp hmem with h1 | h2
      · exact hm h1
      · exact hq (List.mem_singleton.mp h2)
    · rw [dmem_iff_mem_keylist] at hm ⊢
      rw [hk]
      exact List.mem_append_left _ hm

theorem applyAll_append (l1 : List (String × JVal)) :
    ∀ (d : Dict) (l2 : List (String × JVal)),
      applyAll d (l1 ++ l2) =
        match applyAll d l1 with
        | .ok e => applyAll e l2
        | .error err => .error err := by
  induction l1 with
  | nil => intro d l2; rfl
  | cons o rest ih =>
    intro d l2
    simp only [List.cons_append, applyAll]
    rcases ho : applyOne d o.1 o.2 with e | d1
    · rfl
    · exact ih d1 l2

theorem applyAll_error_of_unknown :
    ∀ (ov : List (String × JVal)) (d : Dict),
      (∃ kv, kv ∈ ov ∧ (allowedMissingConfigs.contains kv.1 || dmem d kv.1) = false) →
      ∃ e, applyAll d ov = .error e := by
  intro ov
  induction ov with
  | nil =>
    intro d h
    rcases h with ⟨kv, hmem, _⟩
    exact absurd hmem (by simp)
  | cons o rest ih =>
    intro d h
    rcases h with ⟨kv, hmem, hbad⟩
    simp only [applyAll]
    rcases ho : applyOne d o.1 o.2 with e | d1
    · exact ⟨e, rfl⟩
    · have hgate := applyOne_gate d o.1 o.2 d1 ho
      have hne : kv.1 ≠ o.1 := by
        intro hcontra
        rw [hcontra] at hbad
        rw [hbad] at hgate
        exact Bool.noConfusion hgate
      have hmem2 : kv ∈ rest := by
        rcases List.mem_cons.mp hmem with hcontra | hok
        · exact absurd (congrArg Prod.fst hcontra) hne
        · exact hok
      apply ih d1
      refine ⟨kv, hmem2, ?_⟩
      rw [applyOne_dmem_other d o.1 o.2 d1 ho kv.1 hne]
      exact hbad

/-- C1: dotted-path navigation in `apply_config_changes` behaves opposite
to the claim: a missing intermediate segment is not created — the call
fails with the invalid-path error — while an intermediate segment that
exists with a non-container value is silently coerced to an empty object
and the override succeeds, as witnessed on concrete documents. -/
theorem claim_C1_counterexample :
    applyAll [] [("consensus.block_fetch_horizon", JVal.num 1)] =
      .error (.invalidPath "consensus") ∧
    applyAll [("consensus", JVal.num 5)] [("consensus.block_fetch_horizon", JVal.num 1)] =
      .ok [("consensus", JVal.obj [("block_fetch_horizon", JVal.num 1)])] := by
  constructor <;> rfl

/-- C1 amended: navigating a dotted path fails with `InvalidConfigPath`
when an intermediate segment is absent; an intermediate segment holding a
non-container value is silently replaced by a fresh empty object, so the
override succeeds when that segment is the last intermediate (the old
value is lost), and any deeper segment is then missing from the fresh
object, failing with `InvalidConfigPath` on it. -/
theorem claim_C1_path_navigation (d : Dict) (p q : String) (v : JVal) :
    (∀ rest, dget d p = Option.none →
      setPath d (p :: q :: rest) v = .error (.invalidPath p)) ∧
    (∀ w, dget d p = some w → isObjB w = false →
      setPath d [p, q] v = .ok (dset d p (.obj [(q, v)])) ∧
      (∀ r rs, setPath d (p :: q :: r :: rs) v = .error (.invalidPath q))) := by
  constructor
  · intro rest h
    simp [setPath, h]
  · intro w hw hobj
    have hf : fieldsOr w = [] := by
      rcases w with _ | b | n | s | xs | f
      · rfl
      · rfl
      · rfl
      · rfl
      · rfl
      · exact absurd hobj (by simp [isObjB])
    constructor
    · simp [setPath, hw, hf, dset, Except.map]
    · intro r rs
      simp [setPath, hw, hf, dget, Except.map]

/-- C1 witness: the amended statement applied to a concrete document with
a numeric intermediate. -/
theorem claim_C1_path_navigation_witness :
    setPath [("consensus", JVal.num 5)] ["consensus", "bfh"] (JVal.num 1) =
      .ok [("consensus", JVal.obj [("bfh", JVal.num 1)])] ∧
    setPath [("consensus", JVal.num 5)] ["consensus", "bfh", "deep"] (JVal.num 1) =
      .error (.invalidPath "bfh") := by
  have h := (claim_C1_path_navigation [("consensus", JVal.num 5)] "consensus" "bfh"
    (JVal.num 1)).2 (JVal.num 5) rfl rfl
  exact ⟨h.1, h.2 "deep" []⟩

/-- C2: when the key is present but its existing value is not an object
and the override value is an object, `apply_config_changes` raises an
`AttributeError` from `config_json[k].update(v)` instead of replacing the
value wholesale as the claim states. -/
theorem claim_C2_counterexample :
    applyAll [("foo", JVal.num 42)] [("foo", JVal.obj [("a", JVal.num 1)])] =
      .error (.attrError "foo") := by
  rfl

/-- C2 amended: if the key is present with an object value and the
override value is an object, the result is the one-level merge with the
override winning on conflicting fields and the existing object keeping its
other fields; if the key is present with a non-object value and the
override value is an object, the call errors; in the remaining cases of an
allowed dotless key (override not an object, or key absent) the override
value replaces the existing value wholesale without error. -/
theorem claim_C2_merge :
    (∀ (d : Dict) (k : String) (h vf : Dict), dget d k = some (.obj h) →
      (keylist vf).Nodup →
      applyOne d k (.obj vf) = .ok (dset d k (.obj (dupdate h vf))) ∧
      (∀ f, dmem vf f = true → dget (dupdate h vf) f = dget vf f) ∧
      (∀ f, dmem vf f = false → dget (dupdate h vf) f = dget h f)) ∧
    (∀ (d : Dict) (k : String) (w : JVal) (vf : Dict), dget d k = some w →
      isObjB w = false →
      applyOne d k (.obj vf) = .error (.attrError k)) ∧
    (∀ (d : Dict) (k : String) (v : JVal),
      (allowedMissingConfigs.contains k || dmem d k) = true →
      (dmem d k = false ∨ isObjB v = false) →
      splitChar '.' k = [k] →
      applyOne d k v = .ok (dset d k v)) := by
  refine ⟨?_, ?_, ?_⟩
  · intro d k h vf hget hnodup
    refine ⟨?_, fun f => dget_dupdate_mem vf h f hnodup, fun f => dget_dupdate_not_mem vf h f⟩
    have hmem : dmem d k = true := by rw [dmem, hget]; rfl
    have hgate : (allowedMissingConfigs.contains k || dmem d k) = true := by
      rw [hmem]; simp
    simp only [applyOne, hgate, hmem, Bool.or_true, Bool.not_true, Bool.false_eq_true,
      if_false, isObjB, Bool.and_self, if_true, hget, fieldsOr]
  · intro d k w vf hget hobj
    have hmem : dmem d k = true := by rw [dmem, hget]; rfl
    have hgate : (allowedMissingConfigs.contains k || dmem d k) = true := by
      rw [hmem]; simp
    simp only [applyOne, hgate, hmem, Bool.or_true, Bool.not_true, Bool.false_eq_true,
      if_false, isObjB, Bool.and_self, if_true, hget]
    rcases w with _ | b | n | s | xs | f
    · rfl
    · rfl
    · rfl
    · rfl
    · rfl
    · exact absurd hobj (by simp [isObjB])
  · intro d k v hgate hrepl hsplit
    have hb : (dmem d k && isObjB v) = false := by
      rcases hrepl with h1 | h1 <;> simp [h1]
    simp only [applyOne, hgate, Bool.not_true, Bool.false_eq_true, if_false, hb]
    rw [hsplit]
    rfl

/-- C2 witness: the amended statement at concrete documents: a dict-dict
merge where the override wins on `a` and keeps `b`, the error case, and a
wholesale replacement. -/
theorem claim_C2_merge_witness :
    applyOne [("foo", JVal.obj [("a", JVal.num 1), ("b", JVal.num 2)])]
      "foo" (JVal.obj [("a", JVal.num 9)]) =
      .ok [("foo", JVal.obj [("a", JVal.num 9), ("b", JVal.num 2)])] ∧
    applyOne [("foo", JVal.num 42)] "foo" (JVal.obj [("a", JVal.num 1)]) =
      .error (.attrError "foo") ∧
    applyOne [("foo", JVal.num 42)] "foo" (JVal.num 7) =
      .ok [("foo", JVal.num 7)] := by
  refine ⟨?_, ?_, ?_⟩
  · have h := ((claim_C2_merge.1 [("foo", JVal.obj [("a", JVal.num 1), ("b", JVal.num 2)])]
      "foo" [("a", JVal.num 1), ("b", JVal.num 2)] [("a", JVal.num 9)] rfl (by simp [keylist]))).1
    rw [h]
    rfl
  · exact claim_C2_merge.2.1 [("foo", JVal.num 42)] "foo" (JVal.num 42) [("a", JVal.num 1)]
      rfl rfl
  · have h := claim_C2_merge.2.2 [("foo", JVal.num 42)] "foo" (JVal.num 7) rfl
      (Or.inr rfl) rfl
    rw [h]
    rfl

/-- C3: an override document with an unknown key need not raise the
unknown-key error: if an earlier key fails first (here a dict override
onto a non-dict existing value), that other error propagates instead —
though the loop still fails and nothing is written. -/
theorem claim_C3_counterexample :
    (allowedMissingConfigs.contains "zzz" || dmem [("foo", JVal.num 42)] "zzz") = false ∧
    applyAll [("foo", JVal.num 42)]
      [("foo", JVal.obj [("a", JVal.num 1)]), ("zzz", JVal.num 0)] =
      .error (.attrError "foo") := by
  constructor <;> rfl

/-- C3 amended: for every override document containing a key that is
neither in the on-disk document nor in the allow-list, the call fails with
some error and the on-disk file is left unchanged (no partial write); the
error is the unknown-key error for that key whenever the keys processed
before it all apply successfully. -/
theorem claim_C3_unknown_key :
    (∀ (d : Dict) (ov : List (String × JVal)),
      (∃ kv, kv ∈ ov ∧ (allowedMissingConfigs.contains kv.1 || dmem d kv.1) = false) →
      (∃ e, applyAll d ov = .error e) ∧ applyDisk d ov = d) ∧
    (∀ (d d1 : Dict) (pre post : List (String × JVal)) (k : String) (v : JVal),
      applyAll d pre = .ok d1 →
      (allowedMissingConfigs.contains k || dmem d1 k) = false →
      applyAll d (pre ++ (k, v) :: post) = .error (.unknownKey k)) := by
  constructor
  · intro d ov h
    rcases applyAll_error_of_unknown ov d h with ⟨e, he⟩
    exact ⟨⟨e, he⟩, by simp [applyDisk, he]⟩
  · intro d d1 pre post k v hpre hgate
    rw [applyAll_append, hpre]
    simp only [applyAll, applyOne, hgate, Bool.not_false, if_true]

/-- C3 witness: the amended statement applied to a concrete document and
override map with the unknown key `zzz`. -/
theorem claim_C3_unknown_key_witness :
    (∃ e, applyAll [("foo", JVal.num 42)] [("zzz", JVal.num 0)] = .error e) ∧
    applyDisk [("foo", JVal.num 42)] [("zzz", JVal.num 0)] = [("foo", JVal.num 42)] := by
  exact claim_C3_unknown_key.1 [("foo", JVal.num 42)] [("zzz", JVal.num 0)]
    ⟨("zzz", JVal.num 0), by simp, rfl⟩

/-- C9 witness: the amended statement at a concrete local node. -/
theorem claim_C9_cleanup_witness :
    localCleanup ⟨["m0_finished"]⟩
      ⟨true, "m0_finished", ⟨Option.none, Option.none⟩⟩ =
      .ok (⟨["m0_finished"]⟩, ⟨true, "m0_finished", ⟨Option.none, Option.none⟩⟩, []) := by
  exact claim_C9_cleanup.1 ⟨["m0"]⟩ ⟨false, "m0", ⟨Option.none, Option.none⟩⟩ _ _ _ rfl

theorem wfd_cons (k : String) (v : JVal) (rest : Dict) :
    wfd ((k, v) :: rest) = (!(dmem rest k) && wfv v && wfd rest) := rfl

theorem wfd_nodup : ∀ (d : Dict), wfd d = true → (keylist d).Nodup := by
  intro d
  induction d with
  | nil => intro _; simp [keylist]
  | cons p rest ih =>
    rcases p with ⟨k, v⟩
    intro h
    rw [wfd_cons, Bool.and_eq_true, Bool.and_eq_true] at h
    rw [keylist_cons, List.nodup_cons]
    refine ⟨?_, ih h.2⟩
    have := h.1.1
    rw [Bool.not_eq_true'] at this
    exact (dmem_false_iff rest k).mp this

theorem wfd_values : ∀ (d : Dict), wfd d = true → ∀ p ∈ d, wfv p.2 = true := by
  intro d
  induction d with
  | nil => intro _ p hp; exact absurd hp (by simp)
  | cons q rest ih =>
    rcases q with ⟨k, v⟩
    intro h p hp
    rw [wfd_cons, Bool.and_eq_true, Bool.and_eq_true] at h
    rcases List.mem_cons.mp hp with heq | hmem
    · rw [heq]
      exact h.1.2
    · exact ih h.2 p hmem

theorem dget_wf : ∀ (d : Dict) (k : String) (w : JVal), wfd d = true →
    dget d k = some w → wfv w = true := by
  intro d
  induction d with
  | nil => intro k w _ hg; exact Option.noConfusion hg
  | cons p rest ih =>
    rcases p with ⟨q, v⟩
    intro k w h hg
    rw [wfd_cons, Bool.and_eq_true, Bool.and_eq_true] at h
    rw [dget_cons] at hg
    by_cases hq : q = k
    · rw [if_pos hq] at hg
      rw [← Option.some.injEq _ _ |>.mp hg]
      exact h.1.2
    · rw [if_neg hq] at hg
      exact ih k w h.2 hg

theorem wfd_fieldsOr (w : JVal) (h : wfv w = true) : wfd (fieldsOr w) = true := by
  rcases w with _ | b | n | s | xs | f
  · rfl
  · rfl
  · rfl
  · rfl
  · rfl
  · exact h

theorem dset_wf : ∀ (d : Dict) (k : String) (v : JVal), wfd d = true → wfv v = true →
    wfd (dset d k v) = true := by
  intro d
  induction d with
  | nil =>
    intro k v _ hv
    simp [dset, wfd, dmem, dget, hv]
  | cons p rest ih =>
    rcases p with ⟨q, w⟩
    intro k v h hv
    rw [wfd_cons, Bool.and_eq_true, Bool.and_eq_true] at h
    by_cases hq : q = k
    · subst hq
      rw [dset_cons, if_pos rfl, wfd_cons]
      rw [h.1.1, hv, h.2]
      rfl
    · rw [dset_cons, if_neg hq, wfd_cons]
      have hm : dmem (dset rest k v) q = dmem rest q := by
        rcases hmr : dmem rest k with _ | _
        · rcases hmq : dmem rest q with _ | _
          · rw [dmem_false_iff] at hmq ⊢
            rw [keylist_dset_of_not_mem rest k v hmr]
            intro hmem
            rcases List.mem_append.mp hmem with h1 | h2
            · exact hmq h1
            · exact hq (List.mem_singleton.mp h2)
          · rw [dmem_iff_mem_keylist] at hmq ⊢
            rw [keylist_dset_of_not_mem rest k v hmr]
            exact List.mem_append_left _ hmq
        · rcases hmq : dmem rest q with _ | _
          · rw [dmem_false_iff] at hmq ⊢
            rw [keylist_dset_of_mem rest k v hmr]
            exact hmq
          · rw [dmem_iff_mem_keylist] at hmq ⊢
            rw [keylist_dset_of_mem rest k v hmr]
            exact hmq
      rw [hm, h.1.1, h.1.2, ih k v h.2 hv]
      rfl

theorem dupdate_wf : ∀ (m h : Dict), wfd h = true → (∀ p ∈ m, wfv p.2 = true) →
    wfd (dupdate h m) = true := by
  intro m
  induction m with
  | nil => intro h hh _; exact hh
  | cons p rest ih =>
    rcases p with ⟨a, b⟩
    intro h hh hm
    rw [dupdate_cons]
    apply ih (dset h a b) (dset_wf h a b hh (hm (a, b) (by simp)))
    intro p hp
    exact hm p (List.mem_cons_of_mem _ hp)

theorem setPath_wf (v : JVal) :
    ∀ (parts : List String) (d ψ : Dict), wfd d = true → wfv v = true →
      setPath d parts v = .ok ψ → wfd ψ = true := by
  intro parts
  induction parts with
  | nil => intro d ψ _ _ h; exact Except.noConfusion h
  | cons p rest ih =>
    intro d ψ hd hv h
    rcases rest with _ | ⟨q, rest2⟩
    · simp only [setPath, Except.ok.injEq] at h
      subst h
      exact dset_wf d p v hd hv
    · simp only [setPath] at h
      rcases hg : dget d p with _ | w
      · simp only [hg] at h
        exact Except.noConfusion h
      · simp only [hg] at h
        rcases hs : setPath (fieldsOr w) (q :: rest2) v with e | g
        · simp only [hs, Except.map] at h
          exact Except.noConfusion h
        · simp only [hs, Except.map, Except.ok.injEq] at h
          subst h
          have hwfw : wfv w = true := dget_wf d p w hd hg
          have hwfg : wfd g = true := ih (fieldsOr w) g (wfd_fieldsOr w hwfw) hv hs
          exact dset_wf d p (.obj g) hd hwfg

theorem mem_keylist_dset (d : Dict) (a : String) (b : JVal) (k : String)
    (h : k ∈ keylist d) : k ∈ keylist (dset d a b) := by
  rcases hm : dmem d a with _ | _
  · rw [keylist_dset_of_not_mem d a b hm]
    exact List.mem_append_left _ h
  · rw [keylist_dset_of_mem d a b hm]
    exact h

theorem mem_keylist_dupdate_left : ∀ (m h : Dict) (k : String),
    k ∈ keylist h → k ∈ keylist (dupdate h m) := by
  intro m
  induction m with
  | nil => intro h k hk; exact hk
  | cons p rest ih =>
    rcases p with ⟨a, b⟩
    intro h k hk
    rw [dupdate_cons]
    exact ih (dset h a b) k (mem_keylist_dset h a b k hk)

theorem mem_keylist_dupdate_right : ∀ (m h : Dict) (k : String),
    k ∈ keylist m → k ∈ keylist (dupdate h m) := by
  intro m
  induction m with
  | nil => intro h k hk; exact absurd hk (by simp [keylist])
  | cons p rest ih =>
    rcases p with ⟨a, b⟩
    intro h k hk
    rw [dupdate_cons]
    rw [keylist_cons] at hk
    rcases List.mem_cons.mp hk with heq | hmem
    · subst heq
      apply mem_keylist_dupdate_left
      have := dget_dset_same h k b
      rw [← dmem_iff_mem_keylist, dmem, this]
      rfl
    · exact ih (dset h a b) k hmem

theorem keylist_dupdate_of_subset : ∀ (m h : Dict),
    (∀ x ∈ keylist m, x ∈ keylist h) → keylist (dupdate h m) = keylist h := by
  intro m
  induction m with
  | nil => intro h _; rfl
  | cons p rest ih =>
    rcases p with ⟨a, b⟩
    intro h hsub
    rw [dupdate_cons]
    have ha : a ∈ keylist h := hsub a (by rw [keylist_cons]; exact List.mem_cons_self a _)
    have hset : keylist (dset h a b) = keylist h :=
      keylist_dset_of_mem h a b ((dmem_iff_mem_keylist h a).mpr ha)
    rw [ih (dset h a b) (fun x hx => by
      rw [hset]
      exact hsub x (by rw [keylist_cons]; exact List.mem_cons_of_mem a hx)), hset]

theorem fFold_append (f : String) (A B : List FOp) :
    ∀ x, fFold f x (A ++ B) =
      match fFold f x A with
      | .ok y => fFold f y B
      | .error e => .error e := by
  induction A with
  | nil => intro x; rfl
  | cons op rest ih =>
    intro x
    simp only [List.cons_append, fFold]
    rcases h : fApp f x op with e | y
    · rfl
    · exact ih y

theorem fFold_deep_run (f : String) :
    ∀ (L : List FOp) (φ : Dict), (∀ op ∈ L, isDeepOp op = true) →
      fFold f (some (.obj φ)) L = (nFold φ (toN L)).map (fun g => some (.obj g)) := by
  intro L
  induction L with
  | nil => intro φ _; rfl
  | cons op rest ih =>
    intro φ hdeep
    rcases op with c | m | ⟨q1, qs, v⟩
    · exact absurd (hdeep (FOp.fset c) (by simp)) (by simp [isDeepOp])
    · exact absurd (hdeep (FOp.fmerge m) (by simp)) (by simp [isDeepOp])
    · simp only [fFold, fApp, fieldsOr, toN, nFold, nApp]
      rcases hs : setPath φ (q1 :: qs) v with e | g
      · simp [hs, Except.map]
      · simp only [hs, Except.map]
        exact ih g (fun op hop => hdeep op (List.mem_cons_of_mem _ hop))

theorem fFold_deep_coerce (f : String) (q1 : String) (qs : List String) (v : JVal)
    (rest : List FOp) (w : JVal) :
    fFold f (some w) (FOp.fdeep q1 qs v :: rest) =
      fFold f (some (.obj (fieldsOr w))) (FOp.fdeep q1 qs v :: rest) := rfl

theorem fFold_deep_ok (f : String) (L : List FOp) (w : JVal) (y : Option JVal)
    (hdeep : ∀ op ∈ L, isDeepOp op = true)
    (h : fFold f (some w) L = .ok y) :
    (L = [] ∧ y = some w) ∨
      ∃ g, y = some (.obj g) ∧ nFold (fieldsOr w) (toN L) = .ok g := by
  rcases L with _ | ⟨op, rest⟩
  · left
    exact ⟨rfl, (Except.ok.injEq _ _ ▸ h).symm⟩
  · right
    rcases op with c | m | ⟨q1, qs, v⟩
    · exact absurd (hdeep (FOp.fset c) (by simp)) (by simp [isDeepOp])
    · exact absurd (hdeep (FOp.fmerge m) (by simp)) (by simp [isDeepOp])
    · rw [fFold_deep_coerce, fFold_deep_run f _ (fieldsOr w) hdeep] at h
      rcases hn : nFold (fieldsOr w) (toN (FOp.fdeep q1 qs v :: rest)) with e | g
      · rw [hn] at h
        exact absurd h (by simp [Except.map])
      · rw [hn] at h
        simp only [Except.map, Except.ok.injEq] at h
        exact ⟨g, h.symm, rfl⟩

theorem fFold_deep_some (f : String) (L : List FOp) (x : Option JVal) (y : Option JVal)
    (hdeep : ∀ op ∈ L, isDeepOp op = true) (hne : L ≠ [])
    (h : fFold f x L = .ok y) : ∃ w, x = some w := by
  rcases L with _ | ⟨op, rest⟩
  · exact absurd rfl hne
  · rcases op with c | m | ⟨q1, qs, v⟩
    · exact absurd (hdeep (FOp.fset c) (by simp)) (by simp [isDeepOp])
    · exact absurd (hdeep (FOp.fmerge m) (by simp)) (by simp [isDeepOp])
    · rcases x with _ | w
      · exact absurd h (by simp [fFold, fApp])
      · exact ⟨w, rfl⟩

theorem nFold_proj : ∀ (N : List NOp) (φ ψ : Dict), nFold φ N = .ok ψ →
    ∀ f, fFold f (dget φ f) (projN f N) = .ok (dget ψ f) := by
  intro N
  induction N with
  | nil =>
    intro φ ψ h f
    rw [(Except.ok.injEq _ _ ▸ h : φ = ψ)]
    rfl
  | cons o rest ih =>
    intro φ ψ h f
    simp only [nFold] at h
    rcases ho : nApp φ o with e | φ1
    · simp only [ho] at h
      exact Except.noConfusion h
    · simp only [ho] at h
      by_cases hf : o.hd = f
      · rcases o with ⟨hd, tl, v⟩
        simp only at hf
        subst hf
        rcases tl with _ | ⟨t1, ts⟩
        · simp only [nApp, setPath, Except.ok.injEq] at ho
          subst ho
          simp only [projN, if_pos rfl, fFold, fApp]
          have hih := ih (dset φ hd v) ψ h hd
          rw [dget_dset_same] at hih
          exact hih
        · simp only [nApp, setPath] at ho
          rcases hg : dget φ hd with _ | w
          · simp only [hg] at ho
            exact Except.noConfusion ho
          · simp only [hg] at ho
            rcases hs : setPath (fieldsOr w) (t1 :: ts) v with e | g
            · simp only [hs, Except.map] at ho
              exact Except.noConfusion ho
            · simp only [hs, Except.map, Except.ok.injEq] at ho
              subst ho
              simp only [projN, if_pos rfl, fFold, fApp, hg, hs, Except.map]
              have hih := ih (dset φ hd (JVal.obj g)) ψ h hd
              rw [dget_dset_same] at hih
              exact hih
      · have hget : dget φ1 f = dget φ f := by
          rcases o with ⟨hd, tl, v⟩
          simp only at hf
          rcases tl with _ | ⟨t1, ts⟩
          · simp only [nApp, setPath, Except.ok.injEq] at ho
            subst ho
            exact dget_dset_other φ hd f v (fun hh => hf hh.symm)
          · simp only [nApp, setPath] at ho
            rcases hg : dget φ hd with _ | w
            · simp only [hg] at ho
              exact Except.noConfusion ho
            · simp only [hg] at ho
              rcases hs : setPath (fieldsOr w) (t1 :: ts) v with e | g
              · simp only [hs, Except.map] at ho
                exact Except.noConfusion ho
              · simp only [hs, Except.map, Except.ok.injEq] at ho
                subst ho
                exact dget_dset_other φ hd f _ (fun hh => hf hh.symm)
        have hproj : projN f (o :: rest) = projN f rest := by
          simp only [projN, if_neg hf]
        rw [hproj, ← hget]
        exact ih φ1 ψ h f

theorem nApp_keys (φ : Dict) (o : NOp) (ψ : Dict) (h : nApp φ o = .ok ψ) :
    keylist ψ = keylist φ ∨
      (o.tl = [] ∧ dmem φ o.hd = false ∧ keylist ψ = keylist φ ++ [o.hd]) := by
  rcases setPath_keys o.v (o.hd :: o.tl) φ ψ h with h1 | ⟨p, hp, hpm, hk⟩
  · exact Or.inl h1
  · right
    have h2 := List.cons.injEq _ _ _ _ ▸ hp
    refine ⟨h2.2, ?_, ?_⟩
    · rw [h2.1]; exact hpm
    · rw [h2.1]; exact hk

theorem nApp_head_mem (φ : Dict) (o : NOp) (ψ : Dict) (h : nApp φ o = .ok ψ) :
    o.hd ∈ keylist ψ := by
  rcases o with ⟨hd, tl, v⟩
  rcases tl with _ | ⟨t1, ts⟩
  · simp only [nApp, setPath, Except.ok.injEq] at h
    subst h
    rw [← dmem_iff_mem_keylist, dmem, dget_dset_same]
    rfl
  · simp only [nApp, setPath] at h
    rcases hg : dget φ hd with _ | w
    · simp only [hg] at h
      exact Except.noConfusion h
    · simp only [hg] at h
      rcases hs : setPath (fieldsOr w) (t1 :: ts) v with e | g
      · simp only [hs, Except.map] at h
        exact Except.noConfusion h
      · simp only [hs, Except.map, Except.ok.injEq] at h
        subst h
        rw [← dmem_iff_mem_keylist, dmem, dget_dset_same]
        rfl

theorem nFold_keys_mono : ∀ (N : List NOp) (φ ψ : Dict), nFold φ N = .ok ψ →
    ∀ q, q ∈ keylist φ → q ∈ keylist ψ := by
  intro N
  induction N with
  | nil =>
    intro φ ψ h q hq
    rw [← (Except.ok.injEq _ _ ▸ h : φ = ψ)]
    exact hq
  | cons o rest ih =>
    intro φ ψ h q hq
    simp only [nFold] at h
    rcases ho : nApp φ o with e | φ1
    · simp only [ho] at h
      exact Except.noConfusion h
    · simp only [ho] at h
      apply ih φ1 ψ h q
      rcases nApp_keys φ o φ1 ho with h1 | ⟨_, _, h1⟩
      · rw [h1]; exact hq
      · rw [h1]; exact List.mem_append_left _ hq

theorem nFold_keys_heads : ∀ (N : List NOp) (φ ψ : Dict), nFold φ N = .ok ψ →
    ∀ o ∈ N, o.hd ∈ keylist ψ := by
  intro N
  induction N with
  | nil => intro φ ψ _ o ho; exact absurd ho (by simp)
  | cons o0 rest ih =>
    intro φ ψ h o ho
    simp only [nFold] at h
    rcases h0 : nApp φ o0 with e | φ1
    · simp only [h0] at h
      exact Except.noConfusion h
    · simp only [h0] at h
      rcases List.mem_cons.mp ho with heq | hmem

      · subst heq
        exact nFold_keys_mono rest φ1 ψ h o.hd (nApp_head_mem φ o φ1 h0)
      · exact ih φ1 ψ h o hmem

theorem nFold_keys_preserved : ∀ (N : List NOp) (φ ψ : Dict), nFold φ N = .ok ψ →
    (∀ o ∈ N, dmem φ o.hd = true) → keylist ψ = keylist φ := by
  intro N
  induction N with
  | nil =>
    intro φ ψ h _
    rw [(Except.ok.injEq _ _ ▸ h : φ = ψ)]
  | cons o rest ih =>
    intro φ ψ h hmem
    simp only [nFold] at h
    rcases ho : nApp φ o with e | φ1
    · simp only [ho] at h
      exact Except.noConfusion h
    · simp only [ho] at h
      rcases nApp_keys φ o φ1 ho with h1 | ⟨_, hcontra, _⟩
      · rw [ih φ1 ψ h (fun o2 ho2 => by
          rw [dmem_iff_mem_keylist, h1, ← dmem_iff_mem_keylist]
          exact hmem o2 (List.mem_cons_of_mem o ho2)), h1]
      · rw [hmem o (List.mem_cons_self o rest)] at hcontra
        exact Bool.noConfusion hcontra

theorem nFold_wf : ∀ (N : List NOp) (φ ψ : Dict), wfd φ = true →
    (∀ o ∈ N, wfv o.v = true) → nFold φ N = .ok ψ → wfd ψ = true := by
  intro N
  induction N with
  | nil =>
    intro φ ψ hwf _ h
    rw [← (Except.ok.injEq _ _ ▸ h : φ = ψ)]
    exact hwf
  | cons o rest ih =>
    intro φ ψ hwf hv h
    simp only [nFold] at h
    rcases ho : nApp φ o with e | φ1
    · simp only [ho] at h
      exact Except.noConfusion h
    · simp only [ho] at h
      exact ih φ1 ψ
        (setPath_wf o.v (o.hd :: o.tl) φ φ1 hwf (hv o (List.mem_cons_self o rest)) ho)
        (fun o2 ho2 => hv o2 (List.mem_cons_of_mem o ho2)) h

theorem fSizeL_cons (op : FOp) (L : List FOp) :
    fSizeL (op :: L) = fSize op + fSizeL L := by
  simp [fSizeL]

theorem nSizeL_cons (o : NOp) (N : List NOp) :
    nSizeL (o :: N) = o.tl.length + 1 + nSizeL N := by
  simp [nSizeL, nSize]

theorem projN_size (f : String) : ∀ (N : List NOp),
    projN f N = [] ∨ fSizeL (projN f N) < nSizeL N := by
  intro N
  induction N with
  | nil => exact Or.inl rfl
  | cons o rest ih =>
    by_cases hf : o.hd = f
    · right
      simp only [projN, if_pos hf]
      rw [fSizeL_cons, nSizeL_cons]
      have hsz : fSize (match o.tl with
          | [] => FOp.fset o.v
          | t1 :: ts => FOp.fdeep t1 ts o.v) = o.tl.length := by
        rcases o with ⟨hd, tl, v⟩
        rcases tl with _ | ⟨t1, ts⟩
        · rfl
        · simp [fSize]
      rw [hsz]
      rcases ih with h1 | h1
      · rw [h1]
        simp [fSizeL]
        omega
      · omega
    · simp only [projN, if_neg hf]
      rcases ih with h1 | h1
      · exact Or.inl h1
      · right
        rw [nSizeL_cons]
        omega

theorem fSizeL_toN : ∀ (L : List FOp), (∀ op ∈ L, isDeepOp op = true) →
    nSizeL (toN L) = fSizeL L := by
  intro L
  induction L with
  | nil => intro _; rfl
  | cons op rest ih =>
    intro hdeep
    rcases op with c | m | ⟨q1, qs, v⟩
    · exact absurd (hdeep (FOp.fset c) (by simp)) (by simp [isDeepOp])
    · exact absurd (hdeep (FOp.fmerge m) (by simp)) (by simp [isDeepOp])
    · rw [show toN (FOp.fdeep q1 qs v :: rest) = ⟨q1, qs, v⟩ :: toN rest from rfl,
        nSizeL_cons, fSizeL_cons, ih (fun op hop => hdeep op (List.mem_cons_of_mem _ hop))]
      simp [fSize]

theorem projN_noMerge (f : String) : ∀ (N : List NOp) (op : FOp), op ∈ projN f N →
    ∀ m, op ≠ FOp.fmerge m := by
  intro N
  induction N with
  | nil => intro op hop; exact absurd hop (by simp [projN])
  | cons o rest ih =>
    intro op hop m
    by_cases hf : o.hd = f
    · simp only [projN, if_pos hf] at hop
      rcases List.mem_cons.mp hop with heq | hmem
      · rcases o with ⟨hd, tl, v⟩
        rcases tl with _ | ⟨t1, ts⟩
        · rw [heq]; simp
        · rw [heq]; simp
      · exact ih op hmem m
    · simp only [projN, if_neg hf] at hop
      exact ih op hop m

theorem projN_wf (f : String) : ∀ (N : List NOp), (∀ o ∈ N, wfv o.v = true) →
    ∀ op ∈ projN f N, fOpWf op = true := by
  intro N
  induction N with
  | nil => intro _ op hop; exact absurd hop (by simp [projN])
  | cons o rest ih =>
    intro hwf op hop
    by_cases hf : o.hd = f
    · simp only [projN, if_pos hf] at hop
      rcases List.mem_cons.mp hop with heq | hmem
      · rcases o with ⟨hd, tl, v⟩
        rcases tl with _ | ⟨t1, ts⟩
        · rw [heq]
          exact hwf ⟨hd, [], v⟩ (by simp)
        · rw [heq]
          exact hwf ⟨hd, t1 :: ts, v⟩ (by simp)
      · exact ih (fun o2 ho2 => hwf o2 (List.mem_cons_of_mem o ho2)) op hmem
    · simp only [projN, if_neg hf] at hop
      exact ih (fun o2 ho2 => hwf o2 (List.mem_cons_of_mem o ho2)) op hop

theorem toN_wf : ∀ (L : List FOp), (∀ op ∈ L, fOpWf op = true) →
    ∀ o ∈ toN L, wfv o.v = true := by
  intro L
  induction L with
  | nil => intro _ o ho; exact absurd ho (by simp [toN])
  | cons op rest ih =>
    intro hwf o ho
    rcases op with c | m | ⟨q1, qs, v⟩
    · exact ih (fun op2 hop2 => hwf op2 (List.mem_cons_of_mem _ hop2)) o ho
    · exact ih (fun op2 hop2 => hwf op2 (List.mem_cons_of_mem _ hop2)) o ho
    · rw [show toN (FOp.fdeep q1 qs v :: rest) = ⟨q1, qs, v⟩ :: toN rest from rfl] at ho
      rcases List.mem_cons.mp ho with heq | hmem
      · rw [heq]
        exact hwf (FOp.fdeep q1 qs v) (by simp)
      · exact ih (fun op2 hop2 => hwf op2 (List.mem_cons_of_mem _ hop2)) o hmem

theorem splitChar_ne_nil (sep : Char) (s : String) : splitChar sep s ≠ [] :=
  splitCharAux_ne_nil sep s.data []

theorem fFold_deep_okD (f : String) (B : List FOp) (w : Dict) (y : Option JVal)
    (hdeep : ∀ op ∈ B, isDeepOp op = true)
    (h : fFold f (some (.obj w)) B = .ok y) :
    ∃ g, y = some (.obj g) ∧ nFold w (toN B) = .ok g := by
  rw [fFold_deep_run f B w hdeep] at h
  rcases hn : nFold w (toN B) with e | g
  · rw [hn] at h
    exact absurd h (by simp [Except.map])
  · rw [hn] at h
    simp only [Except.map, Except.ok.injEq] at h
    exact ⟨g, h.symm, rfl⟩

theorem fFold_deep_okS (f : String) (A : List FOp) (x0 : Option JVal) (u : Dict)
    (hdeep : ∀ op ∈ A, isDeepOp op = true)
    (h : fFold f x0 A = .ok (some (.obj u))) :
    ∃ w0, x0 = some w0 ∧ nFold (fieldsOr w0) (toN A) = .ok u := by
  rcases A with _ | ⟨op, rest⟩
  · simp only [fFold, Except.ok.injEq] at h
    exact ⟨.obj u, h, rfl⟩
  · have hne : (op :: rest : List FOp) ≠ [] := by simp
    obtain ⟨w0, hx0⟩ := fFold_deep_some f (op :: rest) x0 _ hdeep hne h
    subst hx0
    rcases fFold_deep_ok f (op :: rest) w0 _ hdeep h with ⟨hcontra, _⟩ | ⟨g, hy, hg⟩
    · exact absurd hcontra (by simp)
    · simp only [Option.some.injEq, JVal.obj.injEq] at hy
      subst hy
      exact ⟨w0, rfl, hg⟩

theorem split_last_set : ∀ (L : List FOp), (∀ op ∈ L, ∀ m, op ≠ FOp.fmerge m) →
    (∀ op ∈ L, isDeepOp op = true) ∨
      ∃ A c B, L = A ++ FOp.fset c :: B ∧ (∀ op ∈ B, isDeepOp op = true) := by
  intro L
  induction L with
  | nil => exact fun _ => Or.inl (fun op hop => absurd hop (by simp))
  | cons op rest ih =>
    intro hnm
    rcases ih (fun op2 hop2 => hnm op2 (List.mem_cons_of_mem _ hop2)) with
      hdeep | ⟨A, c, B, hL, hB⟩
    · rcases hop : op with c | m | ⟨q1, qs, v⟩
      · exact Or.inr ⟨[], c, rest, rfl, hdeep⟩
      · exact absurd rfl (hnm op (by simp) m ∘ (hop ▸ ·))
      · refine Or.inl ?_
        intro op2 hop2
        rcases List.mem_cons.mp hop2 with heq | hmem
        · rw [heq]; rfl
        · exact hdeep op2 hmem
    · exact Or.inr ⟨op :: A, c, B, by rw [hL]; rfl, hB⟩

theorem engine : ∀ n : Nat,
    (∀ (N : List NOp) (φ ψ χ : Dict), nSizeL N ≤ n → wfd φ = true →
      (∀ o ∈ N, wfv o.v = true) → nFold φ N = .ok ψ → nFold ψ N = .ok χ → χ = ψ) ∧
    (∀ (f : String) (L : List FOp) (x0 y1 y2 : Option JVal), fSizeL L ≤ n →
      (∀ op ∈ L, fOpWf op = true) → (∀ op ∈ L, ∀ m, op ≠ FOp.fmerge m) →
      wfOpt x0 = true → fFold f x0 L = .ok y1 → fFold f y1 L = .ok y2 → y2 = y1) := by
  intro n
  induction n using Nat.strong_induction_on with
  | _ n ih =>
    have hP : ∀ (N : List NOp) (φ ψ χ : Dict), nSizeL N ≤ n → wfd φ = true →
        (∀ o ∈ N, wfv o.v = true) → nFold φ N = .ok ψ → nFold ψ N = .ok χ → χ = ψ := by
      intro N φ ψ χ hsz hwf hv h1 h2
      have hwfψ : wfd ψ = true := nFold_wf N φ ψ hwf hv h1
      have hkeys : keylist χ = keylist ψ :=
        nFold_keys_preserved N ψ χ h2 (fun o ho => by
          rw [dmem_iff_mem_keylist]
          exact nFold_keys_heads N φ ψ h1 o ho)
      refine dict_ext χ ψ hkeys (by rw [hkeys]; exact wfd_nodup ψ hwfψ) ?_
      intro q
      have h1q := nFold_proj N φ ψ h1 q
      have h2q := nFold_proj N ψ χ h2 q
      rcases projN_size q N with hemp | hlt
      · rw [hemp] at h2q
        simp only [fFold, Except.ok.injEq] at h2q
        exact h2q.symm
      · exact (ih (fSizeL (projN q N)) (lt_of_lt_of_le hlt hsz)).2 q (projN q N)
          (dget φ q) (dget ψ q) (dget χ q) (le_refl _)
          (projN_wf q N hv) (projN_noMerge q N)
          (by rcases hg : dget φ q with _ | w
              · rfl
              · exact dget_wf φ q w hwf hg)
          h1q h2q
    refine ⟨hP, ?_⟩
    intro f L x0 y1 y2 hsz hwfop hnm hwx h1 h2
    rcases split_last_set L hnm with hdeep | ⟨A, c, B, hL, hB⟩
    · rcases L with _ | ⟨op, rest⟩
      · simp only [fFold, Except.ok.injEq] at h1 h2
        rw [← h2]
      · have hne : (op :: rest : List FOp) ≠ [] := by simp
        obtain ⟨w0, hx0⟩ := fFold_deep_some f (op :: rest) x0 y1 hdeep hne h1
        subst hx0
        rcases fFold_deep_ok f (op :: rest) w0 y1 hdeep h1 with ⟨hcontra, _⟩ | ⟨g, hy1, hg⟩
        · exact absurd hcontra (by simp)
        · subst hy1
          obtain ⟨g2, hy2, hg2⟩ := fFold_deep_okD f (op :: rest) g y2 hdeep h2
          have hNsz : nSizeL (toN (op :: rest)) ≤ n := by
            rw [fSizeL_toN (op :: rest) hdeep]
            exact hsz
          have hgg := hP (toN (op :: rest)) (fieldsOr w0) g g2 hNsz
            (wfd_fieldsOr w0 hwx) (toN_wf (op :: rest) hwfop) hg hg2
          rw [hy2, hgg]
    · subst hL
      rw [fFold_append] at h1 h2
      rcases hA1 : fFold f x0 A with e | t1
      · simp only [hA1] at h1
        exact Except.noConfusion h1
      · simp only [hA1] at h1
        rcases hA2 : fFold f y1 A with e | t2
        · simp only [hA2] at h2
          exact Except.noConfusion h2
        · simp only [hA2] at h2
          simp only [fFold, fApp] at h1 h2
          rw [h1] at h2
          exact (Except.ok.injEq _ _ ▸ h2).symm

theorem engineN (N : List NOp) (φ ψ χ : Dict) (hwf : wfd φ = true)
    (hv : ∀ o ∈ N, wfv o.v = true) (h1 : nFold φ N = .ok ψ) (h2 : nFold ψ N = .ok χ) :
    χ = ψ :=
  (engine (nSizeL N)).1 N φ ψ χ (le_refl _) hwf hv h1 h2

theorem engineF (f : String) (L : List FOp) (x0 y1 y2 : Option JVal)
    (hwfop : ∀ op ∈ L, fOpWf op = true) (hnm : ∀ op ∈ L, ∀ m, op ≠ FOp.fmerge m)
    (hwx : wfOpt x0 = true) (h1 : fFold f x0 L = .ok y1) (h2 : fFold f y1 L = .ok y2) :
    y2 = y1 :=
  (engine (fSizeL L)).2 f L x0 y1 y2 (le_refl _) hwfop hnm hwx h1 h2

theorem dget_none_of_dmem_false (d : Dict) (q : String) (h : dmem d q = false) :
    dget d q = Option.none :=
  (dget_eq_none_iff d q).mpr ((dmem_false_iff d q).mp h)

theorem ftop_flip (f : String) (h : Dict) (B : List FOp) (x0 y1 y2 : Option JVal)
    (hwfh : wfd h = true) (hBwf : ∀ op ∈ B, fOpWf op = true)
    (hB : ∀ op ∈ B, isDeepOp op = true)
    (h1 : fFold f x0 (FOp.fset (.obj h) :: B) = .ok y1)
    (h2 : fFold f y1 (FOp.fmerge h :: B) = .ok y2) :
    y2 = y1 := by
  simp only [fFold, fApp] at h1
  obtain ⟨G1, hy1, hG1⟩ := fFold_deep_okD f B h y1 hB h1
  subst hy1
  simp only [fFold, fApp] at h2
  obtain ⟨G2, hy2, hG2⟩ := fFold_deep_okD f B (dupdate G1 h) y2 hB h2
  subst hy2
  have hvB := toN_wf B hBwf
  have hwfG1 : wfd G1 = true := nFold_wf (toN B) h G1 hwfh hvB hG1
  have hsub : ∀ x ∈ keylist h, x ∈ keylist G1 := nFold_keys_mono (toN B) h G1 hG1
  have hkup : keylist (dupdate G1 h) = keylist G1 := keylist_dupdate_of_subset h G1 hsub
  have hwfu : wfd (dupdate G1 h) = true := dupdate_wf h G1 hwfG1 (wfd_values h hwfh)
  have hkeys : keylist G2 = keylist G1 := by
    rw [nFold_keys_preserved (toN B) (dupdate G1 h) G2 hG2 (fun o ho => by
      rw [dmem_iff_mem_keylist, hkup]
      exact nFold_keys_heads (toN B) h G1 hG1 o ho), hkup]
  have hG2G1 : G2 = G1 := by
    refine dict_ext G2 G1 hkeys (by rw [hkeys]; exact wfd_nodup G1 hwfG1) ?_
    intro q
    have h1q := nFold_proj (toN B) h G1 hG1 q
    have h2q := nFold_proj (toN B) (dupdate G1 h) G2 hG2 q
    rcases hq : dmem h q with _ | _
    · rw [dget_dupdate_not_mem h G1 q hq] at h2q
      rw [dget_none_of_dmem_false h q hq] at h1q
      exact engineF q (projN q (toN B)) Option.none (dget G1 q) (dget G2 q)
        (projN_wf q (toN B) hvB) (projN_noMerge q (toN B)) rfl h1q h2q
    · rw [dget_dupdate_mem h G1 q (wfd_nodup h hwfh) hq] at h2q
      rw [h1q] at h2q
      exact (Except.ok.injEq _ _ ▸ h2q).symm
  rw [hG2G1]

theorem ftop_merge (f : String) (m : Dict) (A B : List FOp) (x0 y1 y2 : Option JVal)
    (hwfm : wfd m = true) (hwx : wfOpt x0 = true)
    (hAwf : ∀ op ∈ A, fOpWf op = true) (hBwf : ∀ op ∈ B, fOpWf op = true)
    (hA : ∀ op ∈ A, isDeepOp op = true) (hB : ∀ op ∈ B, isDeepOp op = true)
    (h1 : fFold f x0 (A ++ FOp.fmerge m :: B) = .ok y1)
    (h2 : fFold f y1 (A ++ FOp.fmerge m :: B) = .ok y2) :
    y2 = y1 := by
  rw [fFold_append] at h1 h2
  rcases hA1 : fFold f x0 A with e | t1
  · simp only [hA1] at h1
    exact Except.noConfusion h1
  simp only [hA1] at h1
  rcases t1 with _ | w
  · exact absurd h1 (by simp [fFold, fApp])
  rcases w with _ | b | nn | s | xs | u1
  · exact absurd h1 (by simp [fFold, fApp])
  · exact absurd h1 (by simp [fFold, fApp])
  · exact absurd h1 (by simp [fFold, fApp])
  · exact absurd h1 (by simp [fFold, fApp])
  · exact absurd h1 (by simp [fFold, fApp])
  simp only [fFold, fApp] at h1
  obtain ⟨G1, hy1, hG1⟩ := fFold_deep_okD f B (dupdate u1 m) y1 hB h1
  subst hy1
  obtain ⟨w0, hx0, hu1⟩ := fFold_deep_okS f A x0 u1 hA hA1
  subst hx0
  rcases hA2 : fFold f (some (.obj G1)) A with e | t2
  · simp only [hA2] at h2
    exact Except.noConfusion h2
  simp only [hA2] at h2
  obtain ⟨u2, ht2, hu2⟩ := fFold_deep_okD f A G1 t2 hA hA2
  subst ht2
  simp only [fFold, fApp] at h2
  obtain ⟨G2, hy2, hG2⟩ := fFold_deep_okD f B (dupdate u2 m) y2 hB h2
  subst hy2
  have hvA := toN_wf A hAwf
  have hvB := toN_wf B hBwf
  have hwfw0 : wfd (fieldsOr w0) = true := wfd_fieldsOr w0 hwx
  have hwfu1 : wfd u1 = true := nFold_wf (toN A) (fieldsOr w0) u1 hwfw0 hvA hu1
  have hwfd1 : wfd (dupdate u1 m) = true := dupdate_wf m u1 hwfu1 (wfd_values m hwfm)
  have hwfG1 : wfd G1 = true := nFold_wf (toN B) (dupdate u1 m) G1 hwfd1 hvB hG1
  have hheadsA : ∀ o ∈ toN A, o.hd ∈ keylist G1 := fun o ho =>
    nFold_keys_mono (toN B) (dupdate u1 m) G1 hG1 o.hd
      (mem_keylist_dupdate_left m u1 o.hd
        (nFold_keys_heads (toN A) (fieldsOr w0) u1 hu1 o ho))
  have hku2 : keylist u2 = keylist G1 :=
    nFold_keys_preserved (toN A) G1 u2 hu2 (fun o ho => by
      rw [dmem_iff_mem_keylist]
      exact hheadsA o ho)
  have hwfu2 : wfd u2 = true := nFold_wf (toN A) G1 u2 hwfG1 hvA hu2
  have hmsub : ∀ x ∈ keylist m, x ∈ keylist u2 := fun x hx => by
    rw [hku2]
    exact nFold_keys_mono (toN B) (dupdate u1 m) G1 hG1 x
      (mem_keylist_dupdate_right m u1 x hx)
  have hkw2 : keylist (dupdate u2 m) = keylist u2 := keylist_dupdate_of_subset m u2 hmsub
  have hwfd2 : wfd (dupdate u2 m) = true := dupdate_wf m u2 hwfu2 (wfd_values m hwfm)
  have hkeys : keylist G2 = keylist G1 := by
    rw [nFold_keys_preserved (toN B) (dupdate u2 m) G2 hG2 (fun o ho => by
      rw [dmem_iff_mem_keylist, hkw2, hku2]
      exact nFold_keys_heads (toN B) (dupdate u1 m) G1 hG1 o ho), hkw2, hku2]
  have hG2G1 : G2 = G1 := by
    refine dict_ext G2 G1 hkeys (by rw [hkeys]; exact wfd_nodup G1 hwfG1) ?_
    intro q
    have h1Bq := nFold_proj (toN B) (dupdate u1 m) G1 hG1 q
    have h2Bq := nFold_proj (toN B) (dupdate u2 m) G2 hG2 q
    rcases hq : dmem m q with _ | _
    · rw [dget_dupdate_not_mem m u1 q hq] at h1Bq
      rw [dget_dupdate_not_mem m u2 q hq] at h2Bq
      have hAq1 := nFold_proj (toN A) (fieldsOr w0) u1 hu1 q
      have hAq2 := nFold_proj (toN A) G1 u2 hu2 q
      have HL1 : fFold q (dget (fieldsOr w0) q) (projN q (toN A) ++ projN q (toN B)) =
          .ok (dget G1 q) := by
        rw [fFold_append]
        simp only [hAq1]
        exact h1Bq
      have HL2 : fFold q (dget G1 q) (projN q (toN A) ++ projN q (toN B)) =
          .ok (dget G2 q) := by
        rw [fFold_append]
        simp only [hAq2]
        exact h2Bq
      refine engineF q (projN q (toN A) ++ projN q (toN B)) (dget (fieldsOr w0) q)
        (dget G1 q) (dget G2 q) ?_ ?_ ?_ HL1 HL2
      · intro op hop
        rcases List.mem_append.mp hop with hm1 | hm2
        · exact projN_wf q (toN A) hvA op hm1
        · exact projN_wf q (toN B) hvB op hm2
      · intro op hop
        rcases List.mem_append.mp hop with hm1 | hm2
        · exact projN_noMerge q (toN A) op hm1
        · exact projN_noMerge q (toN B) op hm2
      · rcases hg : dget (fieldsOr w0) q with _ | v
        · rfl
        · exact dget_wf (fieldsOr w0) q v hwfw0 hg
    · rw [dget_dupdate_mem m u1 q (wfd_nodup m hwfm) hq] at h1Bq
      rw [dget_dupdate_mem m u2 q (wfd_nodup m hwfm) hq] at h2Bq
      rw [h1Bq] at h2Bq
      exact (Except.ok.injEq _ _ ▸ h2Bq).symm
  rw [hG2G1]

theorem projTop_cons (dom : String → Bool) (f : String) (kv : String × JVal)
    (rest : List (String × JVal)) :
    projTop dom f (kv :: rest) = headOps dom f kv.1 kv.2 ++ projTop dom f rest := by
  rcases kv with ⟨k, v⟩
  rfl

theorem headOps_cases (dom : String → Bool) (f k : String) (v : JVal) (op : FOp)
    (h : op ∈ headOps dom f k v) :
    op = FOp.fset v ∨ op = FOp.fmerge (fieldsOr v) ∨ ∃ t1 ts, op = FOp.fdeep t1 ts v := by
  unfold headOps at h
  split at h
  · split at h
    · right; left
      simpa using h
    · exact absurd h (by simp)
  · rcases hsp : splitChar '.' k with _ | ⟨p, ps⟩
    · exact absurd hsp (splitChar_ne_nil '.' k)
    · simp only [hsp] at h
      split at h
      · rcases ps with _ | ⟨t1, ts⟩
        · left
          simpa using h
        · right; right
          exact ⟨t1, ts, by simpa using h⟩
      · exact absurd h (by simp)

theorem headOps_deep_off (dom : String → Bool) (f k : String) (v : JVal) (hkf : k ≠ f) :
    ∀ op ∈ headOps dom f k v, isDeepOp op = true := by
  intro op h
  unfold headOps at h
  by_cases hc : (dom k && isObjB v) = true
  · rw [if_pos hc, if_neg hkf] at h
    exact absurd h (by simp)
  · rw [if_neg hc] at h
    rcases hsp : splitChar '.' k with _ | ⟨p, ps⟩
    · exact absurd hsp (splitChar_ne_nil '.' k)
    · simp only [hsp] at h
      by_cases hpf : p = f
      · rw [if_pos hpf] at h
        rcases ps with _ | ⟨t1, ts⟩
        · have hpk : p = k := splitChar_single '.' k p hsp
          exact absurd (hpk ▸ hpf) hkf
        · simp at h
          rw [h]
          rfl
      · rw [if_neg hpf] at h
        exact absurd h (by simp)

theorem projTop_congr (dom1 dom2 : String → Bool) (f : String) :
    ∀ (ov : List (String × JVal)), (∀ kv ∈ ov, dom1 kv.1 = dom2 kv.1) →
      projTop dom1 f ov = projTop dom2 f ov := by
  intro ov
  induction ov with
  | nil => intro _; rfl
  | cons kv rest ih =>
    intro hag
    rw [projTop_cons, projTop_cons, ih (fun kv2 h2 => hag kv2 (List.mem_cons_of_mem _ h2))]
    have h0 : dom1 kv.1 = dom2 kv.1 := hag kv (List.mem_cons_self _ _)
    unfold headOps
    rw [h0]

theorem projTop_wf (dom : String → Bool) (f : String) :
    ∀ (ov : List (String × JVal)), (∀ kv ∈ ov, wfv kv.2 = true) →
      ∀ op ∈ projTop dom f ov, fOpWf op = true := by
  intro ov
  induction ov with
  | nil => intro _ op hop; exact absurd hop (by simp [projTop])
  | cons kv rest ih =>
    intro hwv op hop
    rw [projTop_cons] at hop
    rcases List.mem_append.mp hop with hm | hm
    · have hv : wfv kv.2 = true := hwv kv (List.mem_cons_self _ _)
      rcases headOps_cases dom f kv.1 kv.2 op hm with h | h | ⟨t1, ts, h⟩
      · rw [h]; exact hv
      · rw [h]; exact wfd_fieldsOr kv.2 hv
      · rw [h]; exact hv
    · exact ih (fun kv2 h2 => hwv kv2 (List.mem_cons_of_mem _ h2)) op hm

theorem projTop_deep_off (dom : String → Bool) (f : String) :
    ∀ (ov : List (String × JVal)), f ∉ ov.map Prod.fst →
      ∀ op ∈ projTop dom f ov, isDeepOp op = true := by
  intro ov
  induction ov with
  | nil => intro _ op hop; exact absurd hop (by simp [projTop])
  | cons kv rest ih =>
    intro hf op hop
    rw [projTop_cons] at hop
    simp only [List.map_cons, List.mem_cons, not_or] at hf
    rcases List.mem_append.mp hop with hm | hm
    · exact headOps_deep_off dom f kv.1 kv.2 (fun hh => hf.1 hh.symm) op hm
    · exact ih hf.2 op hm

theorem applyOne_keys2 (d : Dict) (k : String) (v : JVal) (d1 : Dict)
    (h : applyOne d k v = .ok d1) :
    keylist d1 = keylist d ∨
      (dmem d k = false ∧ splitChar '.' k = [k] ∧ keylist d1 = keylist d ++ [k]) := by
  unfold applyOne at h
  split at h
  · exact Except.noConfusion h
  · split at h
    · rename_i hb
      have hmem : dmem d k = true := (Bool.and_eq_true _ _ ▸ hb).1
      split at h
      · injection h with h2
        subst h2
        exact Or.inl (keylist_dset_of_mem d k _ hmem)
      · exact Except.noConfusion h
    · rcases setPath_keys _ _ _ _ h with h1 | ⟨p, hp, hpm, hk⟩
      · exact Or.inl h1
      · have hps := splitChar_single _ _ _ hp
        subst hps
        exact Or.inr ⟨hpm, hp, hk⟩

theorem applyOne_dmem_mono (d : Dict) (k : String) (v : JVal) (d1 : Dict)
    (h : applyOne d k v = .ok d1) (q : String) (hq : dmem d q = true) :
    dmem d1 q = true := by
  rcases applyOne_keys d k v d1 h with hk | ⟨_, hk⟩
  · rw [dmem_iff_mem_keylist, hk, ← dmem_iff_mem_keylist]
    exact hq
  · rw [dmem_iff_mem_keylist, hk]
    exact List.mem_append_left _ ((dmem_iff_mem_keylist d q).mp hq)

theorem applyAll_dmem_mono : ∀ (ov : List (String × JVal)) (d e : Dict),
    applyAll d ov = .ok e → ∀ q, dmem d q = true → dmem e q = true := by
  intro ov
  induction ov with
  | nil =>
    intro d e h q hq
    simp only [applyAll, Except.ok.injEq] at h
    subst h
    exact hq
  | cons kv rest ih =>
    intro d e h q hq
    simp only [applyAll] at h
    rcases h1 : applyOne d kv.1 kv.2 with err | d1
    · simp only [h1] at h
      exact Except.noConfusion h
    · simp only [h1] at h
      exact ih d1 e h q (applyOne_dmem_mono d kv.1 kv.2 d1 h1 q hq)

theorem applyOne_added (d : Dict) (k : String) (v : JVal) (d1 : Dict)
    (h : applyOne d k v = .ok d1) (q : String) (hq : dmem d1 q = true)
    (hdq : dmem d q = false) : q = k ∧ splitChar '.' k = [k] := by
  rcases applyOne_keys2 d k v d1 h with hk | ⟨_, hsp, hk⟩
  · rw [dmem_iff_mem_keylist, hk, ← dmem_iff_mem_keylist] at hq
    rw [hq] at hdq
    exact Bool.noConfusion hdq
  · rw [dmem_iff_mem_keylist, hk] at hq
    rcases List.mem_append.mp hq with hm | hm
    · rw [dmem_false_iff] at hdq
      exact absurd hm hdq
    · exact ⟨List.mem_singleton.mp hm, hsp⟩

theorem applyAll_added : ∀ (ov : List (String × JVal)) (d e : Dict),
    applyAll d ov = .ok e → ∀ q, dmem e q = true → dmem d q = false →
      splitChar '.' q = [q] := by
  intro ov
  induction ov with
  | nil =>
    intro d e h q hq hdq
    simp only [applyAll, Except.ok.injEq] at h
    subst h
    rw [hq] at hdq
    exact Bool.noConfusion hdq
  | cons kv rest ih =>
    intro d e h q hq hdq
    simp only [applyAll] at h
    rcases h1 : applyOne d kv.1 kv.2 with err | d1
    · simp only [h1] at h
      exact Except.noConfusion h
    · simp only [h1] at h
      rcases hq1 : dmem d1 q with _ | _
      · exact ih d1 e h q hq hq1
      · obtain ⟨hqk, hsp⟩ := applyOne_added d kv.1 kv.2 d1 h1 q hq1 hdq
        rw [hqk]
        exact hsp

theorem applyOne_dotless_present (d : Dict) (k : String) (v : JVal) (d1 : Dict)
    (h : applyOne d k v = .ok d1) (hsp : splitChar '.' k = [k]) :
    dmem d1 k = true := by
  unfold applyOne at h
  split at h
  · exact Except.noConfusion h
  · split at h
    · split at h
      · injection h with h2
        subst h2
        simp [dmem, dget_dset_same]
      · exact Except.noConfusion h
    · rw [hsp] at h
      simp only [setPath, Except.ok.injEq] at h
      subst h
      simp [dmem, dget_dset_same]

theorem applyAll_dotless : ∀ (ov : List (String × JVal)) (d e : Dict),
    applyAll d ov = .ok e →
    ∀ kv ∈ ov, splitChar '.' kv.1 = [kv.1] → dmem e kv.1 = true := by
  intro ov
  induction ov with
  | nil => intro d e _ kv hkv; exact absurd hkv (by simp)
  | cons kv0 rest ih =>
    intro d e h kv hkv hsp
    simp only [applyAll] at h
    rcases h1 : applyOne d kv0.1 kv0.2 with err | d1
    · simp only [h1] at h
      exact Except.noConfusion h
    · simp only [h1] at h
      rcases List.mem_cons.mp hkv with heq | hmem
      · subst heq
        exact applyAll_dmem_mono rest d1 e h kv.1
          (applyOne_dotless_present d kv.1 kv.2 d1 h1 hsp)
      · exact ih d1 e h kv hmem hsp

theorem applyOne_wf (d : Dict) (k : String) (v : JVal) (d1 : Dict)
    (hwf : wfd d = true) (hv : wfv v = true) (h : applyOne d k v = .ok d1) :
    wfd d1 = true := by
  unfold applyOne at h
  split at h
  · exact Except.noConfusion h
  · split at h
    · split at h
      · rename_i hh hg
        injection h with h2
        subst h2
        refine dset_wf d k _ hwf ?_
        have hwfh : wfd hh = true := dget_wf d k (.obj hh) hwf hg
        exact dupdate_wf (fieldsOr v) hh hwfh (wfd_values (fieldsOr v) (wfd_fieldsOr v hv))
      · exact Except.noConfusion h
    · exact setPath_wf v (splitChar '.' k) d d1 hwf hv h

theorem applyAll_wf : ∀ (ov : List (String × JVal)) (d e : Dict), wfd d = true →
    (∀ kv ∈ ov, wfv kv.2 = true) → applyAll d ov = .ok e → wfd e = true := by
  intro ov
  induction ov with
  | nil =>
    intro d e hwf _ h
    simp only [applyAll, Except.ok.injEq] at h
    subst h
    exact hwf
  | cons kv rest ih =>
    intro d e hwf hwv h
    simp only [applyAll] at h
    rcases h1 : applyOne d kv.1 kv.2 with err | d1
    · simp only [h1] at h
      exact Except.noConfusion h
    · simp only [h1] at h
      exact ih d1 e
        (applyOne_wf d kv.1 kv.2 d1 hwf (hwv kv (List.mem_cons_self _ _)) h1)
        (fun kv2 h2 => hwv kv2 (List.mem_cons_of_mem _ h2)) h

theorem applyAll_keys_preserved : ∀ (ov : List (String × JVal)) (d e : Dict),
    applyAll d ov = .ok e →
    (∀ kv ∈ ov, splitChar '.' kv.1 = [kv.1] → dmem d kv.1 = true) →
    keylist e = keylist d := by
  intro ov
  induction ov with
  | nil =>
    intro d e h _
    simp only [applyAll, Except.ok.injEq] at h
    subst h
    rfl
  | cons kv rest ih =>
    intro d e h hpres
    simp only [applyAll] at h
    rcases h1 : applyOne d kv.1 kv.2 with err | d1
    · simp only [h1] at h
      exact Except.noConfusion h
    · simp only [h1] at h
      rcases applyOne_keys2 d kv.1 kv.2 d1 h1 with hk | ⟨hmem, hsp, _⟩
      · have hrest := ih d1 e h (fun kv2 h2 hsp2 => by
          rw [dmem_iff_mem_keylist, hk, ← dmem_iff_mem_keylist]
          exact hpres kv2 (List.mem_cons_of_mem _ h2) hsp2)
        rw [hrest, hk]
      · rw [hpres kv (List.mem_cons_self _ _) hsp] at hmem
        exact Bool.noConfusion hmem

theorem applyOne_field (d : Dict) (k : String) (v : JVal) (d1 : Dict)
    (h : applyOne d k v = .ok d1) (f : String) :
    fFold f (dget d f) (headOps (dmem d) f k v) = .ok (dget d1 f) := by
  unfold applyOne at h
  split at h
  · exact Except.noConfusion h
  · split at h
    · rename_i hcond
      unfold headOps
      rw [if_pos hcond]
      split at h
      · rename_i hh hg
        injection h with h2
        subst h2
        by_cases hkf : k = f
        · subst hkf
          rw [if_pos rfl, dget_dset_same, hg]
          simp [fFold, fApp]
        · rw [if_neg hkf, dget_dset_other d k f _ (fun h2 => hkf h2.symm)]
          rfl
      · exact Except.noConfusion h
    · rename_i hcond
      unfold headOps
      rw [if_neg hcond]
      rcases hsp : splitChar '.' k with _ | ⟨p, ps⟩
      · exact absurd hsp (splitChar_ne_nil '.' k)
      · rw [hsp] at h
        simp only [hsp]
        have hn : nFold d [⟨p, ps, v⟩] = .ok d1 := by
          simp only [nFold, nApp, h]
        exact nFold_proj [⟨p, ps, v⟩] d d1 hn f

theorem applyAll_proj : ∀ (ov : List (String × JVal)) (d e : Dict),
    (ov.map Prod.fst).Nodup → applyAll d ov = .ok e →
    ∀ f, fFold f (dget d f) (projTop (dmem d) f ov) = .ok (dget e f) := by
  intro ov
  induction ov with
  | nil =>
    intro d e _ h f
    simp only [applyAll, Except.ok.injEq] at h
    subst h
    rfl
  | cons kv rest ih =>
    intro d e hnd h f
    simp only [applyAll] at h
    rcases h1 : applyOne d kv.1 kv.2 with err | d1
    · simp only [h1] at h
      exact Except.noConfusion h
    simp only [h1] at h
    simp only [List.map_cons, List.nodup_cons] at hnd
    obtain ⟨hknot, hnd'⟩ := hnd
    have hstep := applyOne_field d kv.1 kv.2 d1 h1 f
    have hrest := ih d1 e hnd' h f
    have horacle : projTop (dmem d1) f rest = projTop (dmem d) f rest := by
      apply projTop_congr
      intro kv2 h2
      have hne : kv2.1 ≠ kv.1 := by
        intro hh
        exact hknot (hh ▸ List.mem_map_of_mem Prod.fst h2)
      exact applyOne_dmem_other d kv.1 kv.2 d1 h1 kv2.1 hne
    rw [horacle] at hrest
    rw [projTop_cons, fFold_append]
    simp only [hstep]
    exact hrest

theorem deep_ne_merge (op : FOp) (h : isDeepOp op = true) : ∀ m, op ≠ FOp.fmerge m := by
  rcases op with c | m | ⟨q1, qs, v⟩
  · exact Bool.noConfusion h
  · exact Bool.noConfusion h
  · intro m hh
    exact FOp.noConfusion hh

theorem headOps_off_dotless (dom : String → Bool) (f k : String) (v : JVal)
    (hsp : splitChar '.' k = [k]) (hkf : k ≠ f) : headOps dom f k v = [] := by
  unfold headOps
  by_cases hc : (dom k && isObjB v) = true
  · rw [if_pos hc, if_neg hkf]
  · rw [if_neg hc]
    simp only [hsp]
    rw [if_neg hkf]

theorem projTop_congr_off (dom1 dom2 : String → Bool) (f : String) :
    ∀ (ov : List (String × JVal)),
      (∀ kv ∈ ov, dom2 kv.1 = dom1 kv.1 ∨ (splitChar '.' kv.1 = [kv.1] ∧ kv.1 ≠ f)) →
      projTop dom2 f ov = projTop dom1 f ov := by
  intro ov
  induction ov with
  | nil => intro _; rfl
  | cons kv rest ih =>
    intro hyp
    rw [projTop_cons, projTop_cons, ih (fun kv2 h2 => hyp kv2 (List.mem_cons_of_mem _ h2))]
    rcases hyp kv (List.mem_cons_self _ _) with h0 | ⟨hsp, hkf⟩
    · unfold headOps
      rw [h0]
    · rw [headOps_off_dotless dom2 f kv.1 kv.2 hsp hkf,
        headOps_off_dotless dom1 f kv.1 kv.2 hsp hkf]

theorem projTop_shape (dom : String → Bool) (f : String) :
    ∀ (ov : List (String × JVal)), (ov.map Prod.fst).Nodup →
      (∀ kv ∈ ov, wfv kv.2 = true) →
      (∀ op ∈ projTop dom f ov, ∀ m, op ≠ FOp.fmerge m) ∨
        ∃ A m B, projTop dom f ov = A ++ FOp.fmerge m :: B ∧ wfd m = true ∧
          (∀ op ∈ A, isDeepOp op = true) ∧ (∀ op ∈ B, isDeepOp op = true) := by
  intro ov
  induction ov with
  | nil =>
    intro _ _
    exact Or.inl (fun op hop => absurd hop (by simp [projTop]))
  | cons kv rest ih =>
    intro hnd hwv
    simp only [List.map_cons, List.nodup_cons] at hnd
    obtain ⟨hknot, hnd'⟩ := hnd
    have hwv' : ∀ kv2 ∈ rest, wfv kv2.2 = true :=
      fun kv2 h2 => hwv kv2 (List.mem_cons_of_mem _ h2)
    by_cases hkf : kv.1 = f
    · have hrest_deep : ∀ op ∈ projTop dom f rest, isDeepOp op = true :=
        projTop_deep_off dom f rest (fun hmem => hknot (by rw [hkf]; exact hmem))
      by_cases hc : (dom kv.1 && isObjB kv.2) = true
      · have hh : headOps dom f kv.1 kv.2 = [FOp.fmerge (fieldsOr kv.2)] := by
          unfold headOps
          rw [if_pos hc, if_pos hkf]
        refine Or.inr ⟨[], fieldsOr kv.2, projTop dom f rest, ?_,
          wfd_fieldsOr kv.2 (hwv kv (List.mem_cons_self _ _)),
          fun op hop => absurd hop (by simp), hrest_deep⟩
        rw [projTop_cons, hh]
        rfl
      · rcases hsp : splitChar '.' kv.1 with _ | ⟨p, ps⟩
        · exact absurd hsp (splitChar_ne_nil '.' kv.1)
        · by_cases hpf : p = f
          · rcases ps with _ | ⟨t1, ts⟩
            · have hh : headOps dom f kv.1 kv.2 = [FOp.fset kv.2] := by
                unfold headOps
                rw [if_neg hc]
                simp only [hsp]
                rw [if_pos hpf]
              refine Or.inl ?_
              intro op hop
              rw [projTop_cons, hh] at hop
              rw [List.singleton_append] at hop
              rcases List.mem_cons.mp hop with heq | hmem
              · rw [heq]
                intro m hcon
                exact FOp.noConfusion hcon
              · exact deep_ne_merge op (hrest_deep op hmem)
            · have hh : headOps dom f kv.1 kv.2 = [FOp.fdeep t1 ts kv.2] := by
                unfold headOps
                rw [if_neg hc]
                simp only [hsp]
                rw [if_pos hpf]
              refine Or.inl ?_
              intro op hop
              rw [projTop_cons, hh] at hop
              rw [List.singleton_append] at hop
              rcases List.mem_cons.mp hop with heq | hmem
              · rw [heq]
                intro m hcon
                exact FOp.noConfusion hcon
              · exact deep_ne_merge op (hrest_deep op hmem)
          · have hh : headOps dom f kv.1 kv.2 = [] := by
              unfold headOps
              rw [if_neg hc]
              simp only [hsp]
              rw [if_neg hpf]
            refine Or.inl ?_
            intro op hop
            rw [projTop_cons, hh, List.nil_append] at hop
            exact deep_ne_merge op (hrest_deep op hop)
    · have hhead_deep := headOps_deep_off dom f kv.1 kv.2 hkf
      rcases ih hnd' hwv' with hnm | ⟨A, m, B, hsh, hwm, hdA, hdB⟩
      · refine Or.inl ?_
        intro op hop
        rw [projTop_cons] at hop
        rcases List.mem_append.mp hop with hm | hm
        · exact deep_ne_merge op (hhead_deep op hm)
        · exact hnm op hm
      · refine Or.inr ⟨headOps dom f kv.1 kv.2 ++ A, m, B, ?_, hwm, ?_, hdB⟩
        · rw [projTop_cons, hsh, List.append_assoc]
        · intro op hop
          rcases List.mem_append.mp hop with hm | hm
          · exact hhead_deep op hm
          · exact hdA op hm

theorem projTop_flip_step (dom1 dom2 : String → Bool) (f : String)
    (kv : String × JVal) (rest : List (String × JVal))
    (hknot : kv.1 ∉ rest.map Prod.fst)
    (hheadeq : headOps dom2 f kv.1 kv.2 = headOps dom1 f kv.1 kv.2)
    (hres : projTop dom2 f rest = projTop dom1 f rest ∨
      ∃ A c B, projTop dom1 f rest = A ++ FOp.fset c :: B ∧
        projTop dom2 f rest = A ++ FOp.fmerge (fieldsOr c) :: B ∧
        isObjB c = true ∧ wfv c = true ∧ dom1 f = false ∧
        f ∈ rest.map Prod.fst ∧
        (∀ op ∈ A, isDeepOp op = true) ∧ (∀ op ∈ B, isDeepOp op = true)) :
    projTop dom2 f (kv :: rest) = projTop dom1 f (kv :: rest) ∨
      ∃ A c B, projTop dom1 f (kv :: rest) = A ++ FOp.fset c :: B ∧
        projTop dom2 f (kv :: rest) = A ++ FOp.fmerge (fieldsOr c) :: B ∧
        isObjB c = true ∧ wfv c = true ∧ dom1 f = false ∧
        f ∈ (kv :: rest).map Prod.fst ∧
        (∀ op ∈ A, isDeepOp op = true) ∧ (∀ op ∈ B, isDeepOp op = true) := by
  rcases hres with heq | ⟨A, c, B, hI1, hI2, hio, hwc, hdf, hfin, hdA, hdB⟩
  · left
    rw [projTop_cons, projTop_cons, hheadeq, heq]
  · right
    have hkneqf : kv.1 ≠ f := fun hh => hknot (by rw [hh]; exact hfin)
    have hdhead := headOps_deep_off dom1 f kv.1 kv.2 hkneqf
    refine ⟨headOps dom1 f kv.1 kv.2 ++ A, c, B, ?_, ?_, hio, hwc, hdf, ?_, ?_, hdB⟩
    · rw [projTop_cons, hI1, List.append_assoc]
    · rw [projTop_cons, hheadeq, hI2, List.append_assoc]
    · simp only [List.map_cons]
      exact List.mem_cons_of_mem _ hfin
    · intro op hop
      rcases List.mem_append.mp hop with hm | hm
      · exact hdhead op hm
      · exact hdA op hm

theorem projTop_flip (dom1 dom2 : String → Bool) (f : String) :
    ∀ (ov : List (String × JVal)), (ov.map Prod.fst).Nodup →
      (∀ kv ∈ ov, wfv kv.2 = true) →
      (∀ kv ∈ ov, dom2 kv.1 = dom1 kv.1 ∨
        (dom1 kv.1 = false ∧ dom2 kv.1 = true ∧ splitChar '.' kv.1 = [kv.1])) →
      projTop dom2 f ov = projTop dom1 f ov ∨
        ∃ A c B, projTop dom1 f ov = A ++ FOp.fset c :: B ∧
          projTop dom2 f ov = A ++ FOp.fmerge (fieldsOr c) :: B ∧
          isObjB c = true ∧ wfv c = true ∧ dom1 f = false ∧
          f ∈ ov.map Prod.fst ∧
          (∀ op ∈ A, isDeepOp op = true) ∧ (∀ op ∈ B, isDeepOp op = true) := by
  intro ov
  induction ov with
  | nil => intro _ _ _; exact Or.inl rfl
  | cons kv rest ih =>
    intro hnd hwv htri
    simp only [List.map_cons, List.nodup_cons] at hnd
    obtain ⟨hknot, hnd'⟩ := hnd
    have hwv' : ∀ kv2 ∈ rest, wfv kv2.2 = true :=
      fun kv2 h2 => hwv kv2 (List.mem_cons_of_mem _ h2)
    have htri' : ∀ kv2 ∈ rest, dom2 kv2.1 = dom1 kv2.1 ∨
        (dom1 kv2.1 = false ∧ dom2 kv2.1 = true ∧ splitChar '.' kv2.1 = [kv2.1]) :=
      fun kv2 h2 => htri kv2 (List.mem_cons_of_mem _ h2)
    rcases htri kv (List.mem_cons_self _ _) with h0 | ⟨hd1, hd2, hsp⟩
    · exact projTop_flip_step dom1 dom2 f kv rest hknot
        (by unfold headOps; rw [h0]) (ih hnd' hwv' htri')
    · by_cases hobj : isObjB kv.2 = true
      · by_cases hkf : kv.1 = f
        · have h1head : headOps dom1 f kv.1 kv.2 = [FOp.fset kv.2] := by
            unfold headOps
            rw [hd1]
            rw [if_neg (show ¬((false && isObjB kv.2) = true) by simp)]
            simp only [hsp]
            rw [if_pos hkf]
          have h2head : headOps dom2 f kv.1 kv.2 = [FOp.fmerge (fieldsOr kv.2)] := by
            unfold headOps
            rw [hd2, hobj]
            rw [if_pos (show (true && true) = true from rfl)]
            rw [if_pos hkf]
          have hrestoff : projTop dom2 f rest = projTop dom1 f rest := by
            apply projTop_congr_off
            intro kv2 h2
            rcases htri' kv2 h2 with h0 | ⟨_, _, hsp2⟩
            · exact Or.inl h0
            · refine Or.inr ⟨hsp2, ?_⟩
              intro hh
              exact hknot (by rw [hkf, ← hh]; exact List.mem_map_of_mem Prod.fst h2)
          right
          refine ⟨[], kv.2, projTop dom1 f rest, ?_, ?_, hobj,
            hwv kv (List.mem_cons_self _ _), by rw [← hkf]; exact hd1, ?_, ?_, ?_⟩
          · rw [projTop_cons, h1head]
            rfl
          · rw [projTop_cons, h2head, hrestoff]
            rfl
          · simp only [List.map_cons]
            exact List.mem_cons.mpr (Or.inl hkf.symm)
          · intro op hop
            exact absurd hop (by simp)
          · exact projTop_deep_off dom1 f rest
              (fun hmem => hknot (by rw [hkf]; exact hmem))
        · have h1off := headOps_off_dotless dom1 f kv.1 kv.2 hsp hkf
          have h2off := headOps_off_dotless dom2 f kv.1 kv.2 hsp hkf
          exact projTop_flip_step dom1 dom2 f kv rest hknot
            (by rw [h1off, h2off]) (ih hnd' hwv' htri')
      · have hobjf : isObjB kv.2 = false := by
          rcases hb : isObjB kv.2 with _ | _
          · rfl
          · exact absurd hb hobj
        exact projTop_flip_step dom1 dom2 f kv rest hknot
          (by unfold headOps; rw [hobjf, Bool.and_false, Bool.and_false])
          (ih hnd' hwv' htri')

theorem fFold_none_deep (f : String) (op : FOp) (A L2 : List FOp)
    (hdeep : ∀ o ∈ op :: A, isDeepOp o = true) (y : Option JVal) :
    fFold f Option.none ((op :: A) ++ L2) ≠ .ok y := by
  rcases op with c | m | ⟨q1, qs, v⟩
  · exact absurd (hdeep (FOp.fset c) (by simp)) (by simp [isDeepOp])
  · exact absurd (hdeep (FOp.fmerge m) (by simp)) (by simp [isDeepOp])
  · intro h
    simp [fFold, fApp] at h

/-- C4 counterexample: the literal idempotence claim fails.  With the
document `{"store": {"state_snapshot_config": 0}}` and the overrides
`{"store.state_snapshot_config.state_snapshot_type": 1, "store": 0}` (keys
taken in this insertion order), the first `apply_config_changes` succeeds
and writes `{"store": 0}`, but running it again with the very same
overrides does not return that document: the dotted key now has to
navigate through `"store" = 0`, which is coerced to an empty object whose
`"state_snapshot_config"` field is missing, so the second application
raises the `InvalidConfigPath` ValueError instead of reproducing the
result of the first. -/
theorem claim_C4_counterexample :
    applyAll
      [("store", JVal.obj [("state_snapshot_config", JVal.num 0)])]
      [("store.state_snapshot_config.state_snapshot_type", JVal.num 1),
       ("store", JVal.num 0)] = .ok [("store", JVal.num 0)] ∧
    applyAll [("store", JVal.num 0)]
      [("store.state_snapshot_config.state_snapshot_type", JVal.num 1),
       ("store", JVal.num 0)] =
      .error (CfgErr.invalidPath "state_snapshot_config") :=
  ⟨rfl, rfl⟩

/-- C4 (corrected): `apply_config_changes` is not literally idempotent —
the second application of the same overrides can raise `InvalidConfigPath`
(see `claim_C4_counterexample`) — but it is idempotent at the level of the
on-disk document.  If applying an override document with pairwise-distinct
keys (which Python dict semantics guarantee) and well-formed JSON values to
a well-formed document succeeds and writes `d1`, then a second run of
`apply_config_changes` with the same overrides leaves the on-disk document
equal to `d1`: it either succeeds with the identical document or raises
before the file write, and in both cases the file still holds `d1`. -/
theorem claim_C4_idempotent_on_disk (d : Dict) (ov : List (String × JVal)) (d1 : Dict)
    (hwf : wfd d = true) (hov : ∀ kv ∈ ov, wfv kv.2 = true)
    (hnd : (ov.map Prod.fst).Nodup)
    (h1 : applyAll d ov = .ok d1) :
    applyDisk d1 ov = d1 := by
  unfold applyDisk
  rcases h2 : applyAll d1 ov with err | d2
  · simp only [h2]
  · simp only [h2]
    have hwfd1 : wfd d1 = true := applyAll_wf ov d d1 hwf hov h1
    have hkeys : keylist d2 = keylist d1 :=
      applyAll_keys_preserved ov d1 d2 h2
        (fun kv hkv hsp => applyAll_dotless ov d d1 h1 kv hkv hsp)
    refine dict_ext d2 d1 hkeys (by rw [hkeys]; exact wfd_nodup d1 hwfd1) ?_
    intro f
    have hF1 := applyAll_proj ov d d1 hnd h1 f
    have hF2 := applyAll_proj ov d1 d2 hnd h2 f
    have hwx : wfOpt (dget d f) = true := by
      rcases hg : dget d f with _ | w
      · rfl
      · exact dget_wf d f w hwf hg
    have htri : ∀ kv ∈ ov, dmem d1 kv.1 = dmem d kv.1 ∨
        (dmem d kv.1 = false ∧ dmem d1 kv.1 = true ∧
          splitChar '.' kv.1 = [kv.1]) := by
      intro kv hkv
      rcases hd : dmem d kv.1 with _ | _
      · rcases hd1m : dmem d1 kv.1 with _ | _
        · exact Or.inl rfl
        · exact Or.inr ⟨rfl, rfl, applyAll_added ov d d1 h1 kv.1 hd1m hd⟩
      · exact Or.inl (applyAll_dmem_mono ov d d1 h1 kv.1 hd)
    rcases projTop_flip (dmem d) (dmem d1) f ov hnd hov htri with heq |
      ⟨A, c, B, hL1, hL2, hio, hwc, hdf, _, hdA, hdB⟩
    · rw [heq] at hF2
      rcases projTop_shape (dmem d) f ov hnd hov with hnm |
        ⟨A, m, B, hsh, hwm, hdA, hdB⟩
      · exact engineF f (projTop (dmem d) f ov) (dget d f) (dget d1 f) (dget d2 f)
          (projTop_wf (dmem d) f ov hov) hnm hwx hF1 hF2
      · rw [hsh] at hF1 hF2
        exact ftop_merge f m A B (dget d f) (dget d1 f) (dget d2 f) hwm hwx
          (fun op hop => projTop_wf (dmem d) f ov hov op
            (by rw [hsh]; exact List.mem_append_left _ hop))
          (fun op hop => projTop_wf (dmem d) f ov hov op
            (by rw [hsh]; exact List.mem_append_right _ (List.mem_cons_of_mem _ hop)))
          hdA hdB hF1 hF2
    · rw [hL1] at hF1
      rw [hL2] at hF2
      rw [dget_none_of_dmem_false d f hdf] at hF1
      rcases A with _ | ⟨op, A2⟩
      · simp only [List.nil_append] at hF1 hF2
        rcases c with _ | b | nn | s | xs | hh
        · exact absurd hio (by simp [isObjB])
        · exact absurd hio (by simp [isObjB])
        · exact absurd hio (by simp [isObjB])
        · exact absurd hio (by simp [isObjB])
        · exact absurd hio (by simp [isObjB])
        · exact ftop_flip f hh B Option.none (dget d1 f) (dget d2 f) hwc
            (fun op2 hop2 => projTop_wf (dmem d) f ov hov op2
              (by rw [hL1]
                  simp only [List.nil_append]
                  exact List.mem_cons_of_mem _ hop2))
            hdB hF1 hF2
      · exact absurd hF1 (fFold_none_deep f op A2 (FOp.fset c :: B) hdA (dget d1 f))

/-- Witness for `claim_C4_idempotent_on_disk`: applying the override
`{"archive": true}` to the document `{"archive": false}` succeeds with
`{"archive": true}`, and a second run leaves the on-disk document equal to
that result. -/
theorem claim_C4_idempotent_on_disk_witness :
    applyDisk [("archive", JVal.bool true)] [("archive", JVal.bool true)] =
      [("archive", JVal.bool true)] :=
  claim_C4_idempotent_on_disk [("archive", JVal.bool false)]
    [("archive", JVal.bool true)] [("archive", JVal.bool true)]
    rfl (by decide) (by decide) rfl

end NearPytest
